import Mathlib

/-!
Shallow embedding of the CPU-scheduling simulator in `main.go` (package main):
the four scheduling algorithms `FCFSSchedule`, `SJFSchedule`,
`SJFPrioritySchedule`, `RRSchedule`, and the CSV row ingestion of
`loadProcesses`.  Go `int64` values are modelled as `Int` (no arithmetic in
the source overflows: bursts are only decremented towards zero and times only
incremented), Go slices as `List`, and the three `for`-loops that are not
structural folds as fuel-indexed step functions.  Each top-level function
returns, besides the rendered table rows, timeline and aggregate numbers, the
final contents of the caller-supplied process slice, so that mutation of the
input is observable.
-/

set_option linter.unusedVariables false

/-- Mirrors Go `type Process struct` (fields `ProcessID`, `ArrivalTime`,
`BurstDuration`, `Priority`, all `int64`). -/
structure Process where
  ProcessID : Int
  ArrivalTime : Int
  BurstDuration : Int
  Priority : Int
deriving Repr, DecidableEq, Inhabited

/-- Mirrors Go `type TimeSlice struct` (fields `PID`, `Start`, `Stop`). -/
structure TimeSlice where
  PID : Int
  Start : Int
  Stop : Int
deriving Repr, DecidableEq, Inhabited

/-- Mirrors Go `type ProcessStatus struct` (fields `ProcessID`, `StartTime`,
`EndTime`); the zero value (all fields 0) is the initial status. -/
structure ProcessStatus where
  ProcessID : Int
  StartTime : Int
  EndTime : Int
deriving Repr, DecidableEq, Inhabited

/-- One row of the rendered schedule table: the seven columns
`{ID, Priority, Burst, Arrival, Wait, Turnaround, Exit}` printed by
`outputSchedule`, kept as integers (the Go code formats these `int64`
values with `fmt.Sprint`). -/
structure ScheduleRow where
  pid : Int
  prio : Int
  burst : Int
  arrival : Int
  wait : Int
  turnaround : Int
  exit : Int
deriving Repr, DecidableEq, Inhabited

/-- Result of one scheduler invocation: table rows, Gantt timeline, the two
integer totals whose quotients by the process count are the printed averages,
the integer denominator of the printed throughput (`lastCompletion` for FCFS,
the final `currentTime` for the other three), and the final contents of the
caller-supplied `processes` slice when the function returns. -/
structure ScheduleResult where
  rows : List ScheduleRow
  gantt : List TimeSlice
  totalWait : Int
  totalTurnaround : Int
  throughputDen : Int
  finalProcesses : List Process
deriving Repr, DecidableEq, Inhabited

/-! ## FCFSSchedule (main.go lines 79-129)

A single pass over the processes in caller order, carried by a fold.  The
local variables of the Go function become the accumulator fields; note that
`waitingTime` is declared outside the loop and is only reassigned when
`ArrivalTime > 0`, so a process with arrival 0 inherits the previous value. -/

structure FCFSAcc where
  serviceTime : Int
  waitingTime : Int
  totalWait : Int
  totalTurnaround : Int
  lastCompletion : Int
  rows : List ScheduleRow
  gantt : List TimeSlice
deriving Repr, DecidableEq, Inhabited

def fcfsInit : FCFSAcc := ⟨0, 0, 0, 0, 0, [], []⟩

/-- Body of the `for i := range processes` loop of `FCFSSchedule`. -/
def fcfsStep (acc : FCFSAcc) (p : Process) : FCFSAcc :=
  let waitingTime := if p.ArrivalTime > 0 then acc.serviceTime - p.ArrivalTime else acc.waitingTime
  let start := waitingTime + p.ArrivalTime
  let turnaround := p.BurstDuration + waitingTime
  let completion := p.BurstDuration + p.ArrivalTime + waitingTime
  let serviceTime := acc.serviceTime + p.BurstDuration
  { serviceTime := serviceTime
    waitingTime := waitingTime
    totalWait := acc.totalWait + waitingTime
    totalTurnaround := acc.totalTurnaround + turnaround
    lastCompletion := completion
    rows := acc.rows ++ [⟨p.ProcessID, p.Priority, p.BurstDuration, p.ArrivalTime,
                          waitingTime, turnaround, completion⟩]
    gantt := acc.gantt ++ [⟨p.ProcessID, start, serviceTime⟩] }

def FCFSSchedule (processes : List Process) : ScheduleResult :=
  let acc := processes.foldl fcfsStep fcfsInit
  ⟨acc.rows, acc.gantt, acc.totalWait, acc.totalTurnaround, acc.lastCompletion, processes⟩

/-! ## Sorting by arrival time

`SJFSchedule` and `SJFPrioritySchedule` sort their copies with
`sort.Slice(..., func(i,j) { return a[i].ArrivalTime < a[j].ArrivalTime })`.
Go sorts slices this short with insertion sort, which is stable; we model the
sort as stable insertion sort on the arrival key. -/

def insertArr (p : Process) : List Process → List Process
  | [] => [p]
  | q :: l => if p.ArrivalTime ≤ q.ArrivalTime then p :: q :: l else q :: insertArr p l

def sortByArrival : List Process → List Process
  | [] => []
  | p :: l => insertArr p (sortByArrival l)

/-! ## The shortest-job scan (main.go lines 171-176 and 265-270)

Both SJF variants run, every time unit, a linear scan over the process array
carrying a best index (initially -1, modelled as `none`) and a best duration
(initially a sentinel: 999 in `SJFPrioritySchedule`, `1<<63 - 1` in
`SJFSchedule`), updating on the strict test
`ArrivalTime <= currentTime && EndTime == 0 && BurstDuration < best`.
The scanned `BurstDuration` is the mutated, remaining burst. -/

def scanShortest (t : Int) : List (Process × ProcessStatus) → Nat → Option Nat × Int →
    Option Nat × Int
  | [], _, best => best
  | e :: rest, i, best =>
      if e.1.ArrivalTime ≤ t ∧ e.2.EndTime = 0 ∧ e.1.BurstDuration < best.2 then
        scanShortest t rest (i + 1) (some i, e.1.BurstDuration)
      else
        scanShortest t rest (i + 1) best

def selectIdx (sentinel : Int) (procs : List Process) (status : List ProcessStatus)
    (t : Int) : Option Nat :=
  (scanShortest t (procs.zip status) 0 (none, sentinel)).1

/-- Sentinel of `SJFSchedule`: `var shortestJobDuration int64 = 1<<63 - 1`. -/
def sjfSentinel : Int := 9223372036854775807

/-- Sentinel of `SJFPrioritySchedule`: `var shortestJobDuration int64 = 999`. -/
def sjfpSentinel : Int := 999

/-! ## The time-stepped simulation state shared by the two SJF variants

Fields mirror the Go locals: the mutated burst copy `processesBurst`, the
`status` array, `currentTime`, `numCompleted` and the two running totals.
`trace` is a ghost field recording, for each loop iteration, the current time
and the selected index (`none` on an idle iteration); it is written exactly
where the Go loop dispatches and influences nothing. -/

structure SimState where
  procs : List Process
  status : List ProcessStatus
  time : Int
  completed : Nat
  totalWait : Int
  totalTurnaround : Int
  trace : List (Int × Option Nat)
deriving Repr, DecidableEq, Inhabited

/-- One iteration of the simulation loop, parametrised by the sentinel, by the
status update applied to the dispatched process (`SJFSchedule` line 275 always
overwrites `StartTime`; `SJFPrioritySchedule` lines 185-188 also records the
`ProcessID` and sets `StartTime` only when it is still 0), and by the
correction applied at completion (`SJFPrioritySchedule` lines 196-198 resets a
`StartTime` of exactly 1 to 0; `SJFSchedule` has no such correction). -/
def stepWith (sentinel : Int) (updRun : Process → Int → ProcessStatus → ProcessStatus)
    (finish : ProcessStatus → ProcessStatus) (st : SimState) : SimState :=
  match selectIdx sentinel st.procs st.status st.time with
  | none => { st with time := st.time + 1, trace := st.trace ++ [(st.time, none)] }
  | some i =>
      let p := st.procs.getD i default
      let s := updRun p st.time (st.status.getD i default)
      let newBurst := p.BurstDuration - 1
      let procs2 := st.procs.set i { p with BurstDuration := newBurst }
      if newBurst = 0 then
        let s2 := finish { s with EndTime := st.time + 1 }
        { procs := procs2
          status := st.status.set i s2
          time := st.time + 1
          completed := st.completed + 1
          totalWait := st.totalWait + (s2.StartTime - p.ArrivalTime)
          totalTurnaround := st.totalTurnaround + (s2.EndTime - p.ArrivalTime)
          trace := st.trace ++ [(st.time, some i)] }
      else
        { st with
          procs := procs2
          status := st.status.set i s
          time := st.time + 1
          trace := st.trace ++ [(st.time, some i)] }

/-- `SJFSchedule` status update: `status[i].StartTime = currentTime`
(unconditional, line 275). -/
def sjfUpd (p : Process) (t : Int) (s : ProcessStatus) : ProcessStatus :=
  { s with StartTime := t }

/-- `SJFPrioritySchedule` status update (lines 185-188). -/
def sjfpUpd (p : Process) (t : Int) (s : ProcessStatus) : ProcessStatus :=
  { s with ProcessID := p.ProcessID
           StartTime := if s.StartTime = 0 then t else s.StartTime }

/-- `SJFPrioritySchedule` completion correction (lines 196-198). -/
def sjfpFinish (s : ProcessStatus) : ProcessStatus :=
  if s.StartTime = 1 then { s with StartTime := 0 } else s

def sjfStep : SimState → SimState := stepWith sjfSentinel sjfUpd id

def sjfpStep : SimState → SimState := stepWith sjfpSentinel sjfpUpd sjfpFinish

/-- Fuel-indexed while-loop: run `step` while `isDone` is false, for at most
`fuel` iterations.  The Go loops (`for numCompleted := 0; numCompleted < n;
currentTime++` and `for numCompleted < int64(n)`) test the condition before
each body. -/
def loopFuel {σ : Type} (step : σ → σ) (isDone : σ → Bool) : Nat → σ → σ
  | 0, s => s
  | fuel + 1, s => if isDone s then s else loopFuel step isDone fuel (step s)

def simDone (n : Nat) (st : SimState) : Bool := n ≤ st.completed

def initStatus (n : Nat) : List ProcessStatus := List.replicate n default

def simInit (sorted : List Process) : SimState :=
  ⟨sorted, initStatus sorted.length, 0, 0, 0, 0, []⟩

/-- Largest arrival time occurring in the list (at least 0). -/
def maxArrival (ps : List Process) : Int :=
  ps.foldl (fun m p => max m p.ArrivalTime) 0

def totalBurstNat (ps : List Process) : Nat :=
  (ps.map (fun p => p.BurstDuration.toNat)).sum

/-- Fuel sufficient for a terminating run: total burst plus the longest
possible initial idle stretch. -/
def simFuel (ps : List Process) : Nat :=
  totalBurstNat ps + (maxArrival ps).toNat

def sjfFinalState (processes : List Process) : SimState :=
  let sorted := sortByArrival processes
  loopFuel sjfStep (simDone sorted.length) (simFuel sorted) (simInit sorted)

def sjfpFinalState (processes : List Process) : SimState :=
  let sorted := sortByArrival processes
  loopFuel sjfpStep (simDone sorted.length) (simFuel sorted) (simInit sorted)

/-- One output row of the SJF variants (and of `RRSchedule` up to the wait
column): ID, Priority and Arrival are read from the mutated copy (whose burst
alone was changed), Burst from the untouched copy, the rest from `status`. -/
def simOutRow (p porig : Process) (s : ProcessStatus) : ScheduleRow :=
  ⟨p.ProcessID, p.Priority, porig.BurstDuration, p.ArrivalTime,
   s.StartTime - p.ArrivalTime, s.EndTime - p.ArrivalTime, s.EndTime⟩

/-- One Gantt entry of the SJF variants and of `RRSchedule`: the `Stop` field
is assigned `turnaroundTime`, not the completion time. -/
def simOutSlice (p : Process) (s : ProcessStatus) : TimeSlice :=
  ⟨p.ProcessID, s.StartTime, s.EndTime - p.ArrivalTime⟩

def buildRows (procs orig : List Process) (status : List ProcessStatus) : List ScheduleRow :=
  (procs.zip (orig.zip status)).map fun e => simOutRow e.1 e.2.1 e.2.2

def buildGantt (procs : List Process) (status : List ProcessStatus) : List TimeSlice :=
  (procs.zip status).map fun e => simOutSlice e.1 e.2

def SJFSchedule (processes : List Process) : ScheduleResult :=
  let sorted := sortByArrival processes
  let fin := sjfFinalState processes
  ⟨buildRows fin.procs sorted fin.status, buildGantt fin.procs fin.status,
   fin.totalWait, fin.totalTurnaround, fin.time, processes⟩

def SJFPrioritySchedule (processes : List Process) : ScheduleResult :=
  let sorted := sortByArrival processes
  let fin := sjfpFinalState processes
  ⟨buildRows fin.procs sorted fin.status, buildGantt fin.procs fin.status,
   fin.totalWait, fin.totalTurnaround, fin.time, processes⟩

/-! ## RRSchedule (main.go lines 316-397)

The queue holds indices into the process array; every process is enqueued at
start regardless of arrival time.  The burst test and decrement (lines
352-356) are performed on the caller-supplied `processes` slice itself, not on
either copy, so the input is mutated.  `trace` is a ghost record of
`(ProcessID, currentTime)` per dispatch. -/

structure RRState where
  processes : List Process
  status : List ProcessStatus
  queue : List Nat
  time : Int
  completed : Nat
  totalTurnaround : Int
  trace : List (Int × Int)
deriving Repr, DecidableEq, Inhabited

def rrStep (st : RRState) : RRState :=
  match st.queue with
  | [] => st
  | i :: rest =>
      let p := st.processes.getD i default
      let s0 := st.status.getD i default
      let s1 := if s0.StartTime = 0 then { s0 with StartTime := st.time } else s0
      if p.BurstDuration > 1 then
        { st with
          processes := st.processes.set i { p with BurstDuration := p.BurstDuration - 1 }
          status := st.status.set i s1
          queue := rest ++ [i]
          time := st.time + 1
          trace := st.trace ++ [(p.ProcessID, st.time)] }
      else
        { st with
          processes := st.processes.set i { p with BurstDuration := 0 }
          status := st.status.set i { s1 with EndTime := st.time + 1 }
          queue := rest
          time := st.time + 1
          completed := st.completed + 1
          totalTurnaround := st.totalTurnaround + (st.time + 1 - p.ArrivalTime)
          trace := st.trace ++ [(p.ProcessID, st.time)] }

def rrDone (n : Nat) (st : RRState) : Bool := n ≤ st.completed

def rrInit (processes : List Process) : RRState :=
  ⟨processes, initStatus processes.length, List.range processes.length, 0, 0, 0, []⟩

def rrFinalState (processes : List Process) : RRState :=
  loopFuel rrStep (rrDone processes.length) (totalBurstNat processes) (rrInit processes)

/-- Wait column of `RRSchedule` (lines 377-378): turnaround minus the original
burst duration. -/
def rrRow (p : Process) (s : ProcessStatus) : ScheduleRow :=
  ⟨p.ProcessID, p.Priority, p.BurstDuration, p.ArrivalTime,
   (s.EndTime - p.ArrivalTime) - p.BurstDuration, s.EndTime - p.ArrivalTime, s.EndTime⟩

def RRSchedule (processes : List Process) : ScheduleResult :=
  let fin := rrFinalState processes
  ⟨(processes.zip fin.status).map (fun e => rrRow e.1 e.2),
   buildGantt processes fin.status,
   ((processes.zip fin.status).map
     (fun e => (e.2.EndTime - e.1.ArrivalTime) - e.1.BurstDuration)).sum,
   fin.totalTurnaround, fin.time, fin.processes⟩

/-! ## loadProcesses (main.go lines 460-487)

CSV rows become `List String`; the unguarded accesses `rows[i][0..2]` are
modelled with `getElem?`, a missing field being the runtime panic, and
`mustStrToInt` (which exits the program on a parse failure) becomes the
`badInteger` failure. -/

inductive LoadFailure
  | indexOutOfRange
  | badInteger
deriving Repr, DecidableEq

def mustStrToInt (s : String) : Except LoadFailure Int :=
  match s.toInt? with
  | some i => .ok i
  | none => .error .badInteger

def getField (row : List String) (i : Nat) : Except LoadFailure String :=
  match row[i]? with
  | some s => .ok s
  | none => .error .indexOutOfRange

def loadRow (row : List String) : Except LoadFailure Process := do
  let pid ← mustStrToInt (← getField row 0)
  let burst ← mustStrToInt (← getField row 1)
  let arrival ← mustStrToInt (← getField row 2)
  let prio ← if row.length = 4 then mustStrToInt (← getField row 3) else .ok 0
  .ok ⟨pid, arrival, burst, prio⟩

def loadProcesses : List (List String) → Except LoadFailure (List Process)
  | [] => .ok []
  | row :: rest => do
      let p ← loadRow row
      let ps ← loadProcesses rest
      .ok (p :: ps)

/-! ## Definitions used only in statements and proofs -/

/-- Cumulative service time accumulated before process `i` in FCFS order:
the sum of the burst durations of the processes preceding it. -/
def serviceBefore (ps : List Process) (i : Nat) : Int :=
  ((ps.take i).map (fun p => p.BurstDuration)).sum

/-- The `waitingTime` value after the `FCFSSchedule` loop body has processed
`p`, given accumulated service `s` and the previous `waitingTime` `w`. -/
def fcfsWait (s w : Int) (p : Process) : Int :=
  if p.ArrivalTime > 0 then s - p.ArrivalTime else w

/-- Closed form of the rows produced by the `FCFSSchedule` fold, starting from
service accumulator `s` and carried `waitingTime` `w`. -/
def fcfsRows (s w : Int) : List Process → List ScheduleRow
  | [] => []
  | p :: ps =>
      ⟨p.ProcessID, p.Priority, p.BurstDuration, p.ArrivalTime, fcfsWait s w p,
        p.BurstDuration + fcfsWait s w p, p.BurstDuration + p.ArrivalTime + fcfsWait s w p⟩ ::
        fcfsRows (s + p.BurstDuration) (fcfsWait s w p) ps

/-- Closed form of the Gantt timeline produced by the `FCFSSchedule` fold. -/
def fcfsGantt (s w : Int) : List Process → List TimeSlice
  | [] => []
  | p :: ps =>
      ⟨p.ProcessID, fcfsWait s w p + p.ArrivalTime, s + p.BurstDuration⟩ ::
        fcfsGantt (s + p.BurstDuration) (fcfsWait s w p) ps

/-- Process `i` is eligible to be dispatched at time `t`: it exists, has
arrived, and has no recorded end time. -/
def eligAt (procs : List Process) (status : List ProcessStatus) (t : Int) (i : Nat) : Prop :=
  i < procs.length ∧ (procs.getD i default).ArrivalTime ≤ t ∧
    (status.getD i default).EndTime = 0

instance (procs : List Process) (status : List ProcessStatus) (t : Int) (i : Nat) :
    Decidable (eligAt procs status t i) := by
  unfold eligAt; infer_instance

/-- Remaining burst duration of process `i` in the working copy. -/
def remAt (procs : List Process) (i : Nat) : Int :=
  (procs.getD i default).BurstDuration

/-- Eligibility of one zipped (process, status) entry: arrived and without a
recorded end time — the first two conjuncts of the scan condition. -/
def okPair (t : Int) (e : Process × ProcessStatus) : Prop :=
  e.1.ArrivalTime ≤ t ∧ e.2.EndTime = 0

/-- Selection following the words of the spec, for comparison with the
code's `selectIdx`: among the arrived, not-yet-completed processes pick the
one with smallest full (original) `BurstDuration`, ties to the first index;
the bursts are read from the unmutated `orig` array. -/
def specScanFull (t : Int) : List (Process × ProcessStatus) → Nat → Option (Nat × Int) →
    Option (Nat × Int)
  | [], _, best => best
  | e :: rest, i, none =>
      if e.1.ArrivalTime ≤ t ∧ e.2.EndTime = 0 then
        specScanFull t rest (i + 1) (some (i, e.1.BurstDuration))
      else
        specScanFull t rest (i + 1) none
  | e :: rest, i, some b =>
      if e.1.ArrivalTime ≤ t ∧ e.2.EndTime = 0 ∧ e.1.BurstDuration < b.2 then
        specScanFull t rest (i + 1) (some (i, e.1.BurstDuration))
      else
        specScanFull t rest (i + 1) (some b)

def specSelectFullBurst (orig : List Process) (status : List ProcessStatus)
    (t : Int) : Option Nat :=
  (specScanFull t (orig.zip status) 0 none).map (fun b => b.1)

/-- Two processes that agree on everything except possibly `Priority`. -/
def samePAB (p q : Process) : Prop :=
  p.ProcessID = q.ProcessID ∧ p.ArrivalTime = q.ArrivalTime ∧
    p.BurstDuration = q.BurstDuration

/-- Two simulation states that differ at most in the `Priority` fields of
their working process copies. -/
def simRel (st st2 : SimState) : Prop :=
  List.Forall₂ samePAB st.procs st2.procs ∧ st.status = st2.status ∧
  st.time = st2.time ∧ st.completed = st2.completed ∧
  st.totalWait = st2.totalWait ∧ st.totalTurnaround = st2.totalTurnaround ∧
  st.trace = st2.trace

/-- The outputs of `SJFPrioritySchedule` that the spec asserts do not depend
on the `Priority` field: the status array (start and end times), the wait and
turnaround columns, the two totals behind the printed averages, the final
time (the throughput divisor) and the Gantt timeline. -/
def sjfpObservables (ps : List Process) :
    List ProcessStatus × List Int × List Int × Int × Int × Int × List TimeSlice :=
  let fin := sjfpFinalState ps
  let res := SJFPrioritySchedule ps
  (fin.status, res.rows.map (fun r => r.wait), res.rows.map (fun r => r.turnaround),
   res.totalWait, res.totalTurnaround, res.throughputDen, res.gantt)

/-- Number of processes whose completion has been recorded. -/
def countCompleted (status : List ProcessStatus) : Nat :=
  status.countP (fun s => decide (s.EndTime ≠ 0))

/-- Total remaining burst of the not-yet-completed processes, as a natural
number. -/
def remSumN (st : SimState) : Nat :=
  ((st.procs.zip st.status).map
    (fun e => if e.2.EndTime = 0 then e.1.BurstDuration.toNat else 0)).sum

/-- Loop invariant of the two SJF-style simulations, with sentinel `sent`,
arrival bound `A` and process count `n`. -/
def simInv (sent A : Int) (n : Nat) (st : SimState) : Prop :=
  st.procs.length = n ∧ st.status.length = n ∧ 0 ≤ st.time ∧
  st.completed = countCompleted st.status ∧
  (∀ i, i < n → (st.status.getD i default).EndTime = 0 →
     1 ≤ remAt st.procs i ∧ remAt st.procs i < sent) ∧
  (∀ p ∈ st.procs, p.ArrivalTime ≤ A)

/-- Termination measure of the SJF-style simulations: remaining work plus the
idle time still possible before the last arrival. -/
def simPhi (A : Int) (st : SimState) : Nat :=
  remSumN st + (A - st.time).toNat

/-- Loop invariant of the `RRSchedule` simulation. -/
def rrInv (n : Nat) (st : RRState) : Prop :=
  st.processes.length = n ∧ st.status.length = n ∧ 0 ≤ st.time ∧
  st.queue.Nodup ∧
  (∀ i ∈ st.queue, i < n ∧ 1 ≤ (st.processes.getD i default).BurstDuration) ∧
  st.queue.length + st.completed = n

/-- Termination measure of the `RRSchedule` simulation. -/
def rrPhi (st : RRState) : Nat :=
  (st.processes.map (fun p => p.BurstDuration.toNat)).sum

/-! ## Theorems -/

lemma mustStrToInt_cases (s : String) :
    (∃ i, mustStrToInt s = .ok i) ∨ mustStrToInt s = .error .badInteger := by
  unfold mustStrToInt
  cases s.toInt? <;> simp

lemma loadRow_ne_oob (row : List String) (h : 3 ≤ row.length) :
    loadRow row ≠ Except.error LoadFailure.indexOutOfRange := by
  match row, h with
  | a :: b :: c :: rest, _ =>
    simp only [loadRow, getField, List.getElem?_cons_zero, List.getElem?_cons_succ]
    rcases mustStrToInt_cases a with ⟨ia, hia⟩ | hia <;>
      rcases mustStrToInt_cases b with ⟨ib, hib⟩ | hib <;>
        rcases mustStrToInt_cases c with ⟨ic, hic⟩ | hic <;>
          simp only [hia, hib, hic, Bind.bind, Except.bind, pure, Except.pure] <;>
            try simp
    split_ifs with h4
    · rcases rest with - | ⟨d, rest2⟩
      · simp at h4
      · simp only [List.getElem?_cons_zero]
        rcases mustStrToInt_cases d with ⟨idd, hid⟩ | hid <;> simp [hid]
    · simp

lemma loadProcesses_ne_oob (rows : List (List String)) (h : ∀ r ∈ rows, 3 ≤ r.length) :
    loadProcesses rows ≠ Except.error LoadFailure.indexOutOfRange := by
  induction rows with
  | nil => simp [loadProcesses]
  | cons row rest ih =>
    have hrow := loadRow_ne_oob row (h row (by simp))
    have hrest := ih (fun r hr => h r (by simp [hr]))
    simp only [loadProcesses]
    rcases hlr : loadRow row with e | p
    · cases e
      · exact absurd hlr hrow
      · simp [Bind.bind, Except.bind, hlr]
    · rcases hlp : loadProcesses rest with e | ps
      · cases e
        · exact absurd hlp hrest
        · simp [Bind.bind, Except.bind, hlr, hlp]
      · simp [Bind.bind, Except.bind, hlr, hlp]

/-- C10: `loadProcesses` reads fields 0, 1 and 2 of every row unguarded: on
rows that all have at least 3 fields the accesses are in bounds (the run can
fail only as `badInteger`, the modelled `mustStrToInt` exit), and a row with
fewer than 3 fields makes the indexing go out of bounds (the modelled panic),
a failure mode distinct from both documented fatal errors. -/
theorem loadProcesses_field_bounds :
    (∀ rows : List (List String), (∀ r ∈ rows, 3 ≤ r.length) →
      loadProcesses rows ≠ Except.error LoadFailure.indexOutOfRange) ∧
    loadProcesses [[]] = Except.error LoadFailure.indexOutOfRange := by
  exact ⟨loadProcesses_ne_oob, rfl⟩

/-- C10 witness: a well-formed three-field row is loaded without any
out-of-bounds access. -/
theorem loadProcesses_field_bounds_witness :
    loadProcesses [["7", "5", "2"]] ≠ Except.error LoadFailure.indexOutOfRange :=
  loadProcesses_field_bounds.1 [["7", "5", "2"]] (by decide)

/-- C1: evaluation at the failing input.  `SJFSchedule` on a single process
with burst 2 reports Wait 1 and Turnaround 2, so Turnaround is not
Wait + BurstDuration (which is 3): the loop overwrites `StartTime` at every
dispatch, so the wait column uses the last dispatch instead of the first. -/
theorem sjf_breaks_wait_plus_burst :
    (SJFSchedule [⟨1, 0, 2, 0⟩]).rows = [⟨1, 0, 2, 0, 1, 2, 2⟩] ∧
    ¬ ((2 : Int) = 1 + 2) := by
  decide

/-- C3: evaluation at the failing input.  `RRSchedule` decrements the burst
field of the caller-supplied slice itself (not of either private copy), so
after it returns the input process has burst 0 instead of 2. -/
theorem rr_mutates_caller_slice :
    (RRSchedule [⟨1, 0, 2, 0⟩]).finalProcesses = [⟨1, 0, 0, 0⟩] ∧
    (RRSchedule [⟨1, 0, 2, 0⟩]).finalProcesses ≠ [⟨1, 0, 2, 0⟩] := by
  decide

/-- C8: on `[{1,0,4},{2,0,2}]` Round-Robin with quantum 1 dispatches
process 1 at time 0, process 2 at 1, process 1 at 2, process 2 at 3
(completing at 4), process 1 at 4 and at 5 (completing at 6). -/
theorem rr_interleaving_example :
    (rrFinalState [⟨1, 0, 4, 0⟩, ⟨2, 0, 2, 0⟩]).trace =
      [(1, 0), (2, 1), (1, 2), (2, 3), (1, 4), (1, 5)] ∧
    ((rrFinalState [⟨1, 0, 4, 0⟩, ⟨2, 0, 2, 0⟩]).status.getD 1 default).EndTime = 4 ∧
    ((rrFinalState [⟨1, 0, 4, 0⟩, ⟨2, 0, 2, 0⟩]).status.getD 0 default).EndTime = 6 := by
  decide

/-- C2 counterexample: on `[{1,0,3},{2,1,2}]`, at time 1 (the state after one
step) the code selects index 0 (process 1, remaining burst 2 after one unit
of service), while selection by smallest full burst would pick index 1
(process 2, full burst 2 < 3): `SJFSchedule` compares the decremented
remaining bursts, not the original ones. -/
theorem sjf_selects_by_remaining_not_full_cex :
    (sjfStep (simInit (sortByArrival [⟨1, 0, 3, 0⟩, ⟨2, 1, 2, 0⟩]))).time = 1 ∧
    selectIdx sjfSentinel
      (sjfStep (simInit (sortByArrival [⟨1, 0, 3, 0⟩, ⟨2, 1, 2, 0⟩]))).procs
      (sjfStep (simInit (sortByArrival [⟨1, 0, 3, 0⟩, ⟨2, 1, 2, 0⟩]))).status 1 = some 0 ∧
    specSelectFullBurst (sortByArrival [⟨1, 0, 3, 0⟩, ⟨2, 1, 2, 0⟩])
      (sjfStep (simInit (sortByArrival [⟨1, 0, 3, 0⟩, ⟨2, 1, 2, 0⟩]))).status 1 = some 1 ∧
    (sjfFinalState [⟨1, 0, 3, 0⟩, ⟨2, 1, 2, 0⟩]).trace.getD 1 (0, none) = (1, some 0) := by
  decide

/-- C4 counterexample: `SJFSchedule` on a single process of burst 2 emits the
slice `{1, Start 1, Stop 2}` with `Stop - Start = 1 ≠ 2` (its `Stop` holds the
turnaround, its `Start` the last dispatch), and `FCFSSchedule` on two
processes both arriving at 0 emits `{2, Start 0, Stop 5}` for the second one,
with `Stop - Start = 5 ≠ 3`. -/
theorem nonpreemptive_slice_cex :
    (SJFSchedule [⟨1, 0, 2, 0⟩]).gantt = [⟨1, 1, 2⟩] ∧ ¬ ((2 : Int) - 1 = 2) ∧
    (FCFSSchedule [⟨1, 0, 2, 0⟩, ⟨2, 0, 3, 0⟩]).gantt.getD 1 default = ⟨2, 0, 5⟩ ∧
    ¬ ((5 : Int) - 0 = 3) := by
  decide

/-- C5 counterexample: in `FCFSSchedule` on `[{1,1,5},{2,0,3}]` the second
process has arrival 0 but reported wait -1, not 0: `waitingTime` is simply
the stale value left from the previous iteration. -/
theorem fcfs_zero_arrival_wait_cex :
    ((FCFSSchedule [⟨1, 1, 5, 0⟩, ⟨2, 0, 3, 0⟩]).rows.getD 1 default).arrival = 0 ∧
    ((FCFSSchedule [⟨1, 1, 5, 0⟩, ⟨2, 0, 3, 0⟩]).rows.getD 1 default).wait = -1 ∧
    ((-1 : Int) ≠ 0) := by
  decide

/-- C6 counterexample: with non-negative arrivals and positive bursts the
`Stop` field (which holds the turnaround, not the completion time) can fall
below `Start`: both SJF variants on `[{1,0,1},{2,2,1}]` emit `{2, Start 2,
Stop 1}` for the late process, and `RRSchedule` on `[{1,2,1}]` emits
`{1, Start 0, Stop -1}`. -/
theorem start_le_stop_cex :
    (SJFSchedule [⟨1, 0, 1, 0⟩, ⟨2, 2, 1, 0⟩]).gantt.getD 1 default = ⟨2, 2, 1⟩ ∧
    (SJFPrioritySchedule [⟨1, 0, 1, 0⟩, ⟨2, 2, 1, 0⟩]).gantt.getD 1 default = ⟨2, 2, 1⟩ ∧
    ¬ ((2 : Int) ≤ 1) ∧
    (RRSchedule [⟨1, 2, 1, 0⟩]).gantt = [⟨1, 0, -1⟩] ∧ ¬ ((0 : Int) ≤ -1) := by
  decide

lemma mem_of_getElem? {α : Type} : ∀ (l : List α) (i : Nat) (a : α), l[i]? = some a → a ∈ l := by
  intro l
  induction l with
  | nil => intro i a h; simp at h
  | cons x xs ih =>
    intro i a h
    cases i with
    | zero => simp_all
    | succ k => exact List.mem_cons_of_mem x (ih k a (by simpa using h))

lemma sjfp_step_stuck (st : SimState) (h1 : st.procs = [⟨1, 0, 999, 0⟩])
    (h2 : st.status = [⟨0, 0, 0⟩]) :
    sjfpStep st = { st with time := st.time + 1, trace := st.trace ++ [(st.time, none)] } := by
  have hsel : selectIdx sjfpSentinel st.procs st.status st.time = none := by
    rw [h1, h2]
    simp [selectIdx, scanShortest, sjfpSentinel]
  simp only [sjfpStep, stepWith, hsel]

lemma sjfp_loop_stuck : ∀ (fuel : Nat) (st : SimState), st.procs = [⟨1, 0, 999, 0⟩] →
    st.status = [⟨0, 0, 0⟩] → st.completed = 0 →
    (loopFuel sjfpStep (simDone 1) fuel st).completed = 0 := by
  intro fuel
  induction fuel with
  | zero => intro st h1 h2 h3; simpa [loopFuel] using h3
  | succ f ih =>
    intro st h1 h2 h3
    rw [loopFuel]
    have hd : simDone 1 st = false := by simp [simDone, h3]
    rw [hd]
    simp only [Bool.false_eq_true, if_false]
    exact ih _ (by rw [sjfp_step_stuck st h1 h2]; exact h1)
      (by rw [sjfp_step_stuck st h1 h2]; exact h2)
      (by rw [sjfp_step_stuck st h1 h2]; exact h3)

/-- C7 counterexample: on the single process `{1, 0, 999}` the claimed bound
(total burst plus idle time) is 999 steps, yet after 999 iterations
`SJFPrioritySchedule` has completed nothing: its selection scan starts from
the sentinel 999 and uses a strict comparison, so a process with burst 999 is
never dispatched and the loop never finishes. -/
theorem sjfp_burst999_exceeds_bound_cex :
    simFuel (sortByArrival [⟨1, 0, 999, 0⟩]) = 999 ∧
    (sortByArrival [⟨1, 0, 999, 0⟩]).length = 1 ∧
    (sjfpFinalState [⟨1, 0, 999, 0⟩]).completed = 0 := by
  refine ⟨by decide, by decide, ?_⟩
  exact sjfp_loop_stuck _ _ rfl rfl rfl

lemma fcfs_foldl_rows : ∀ (ps : List Process) (acc : FCFSAcc),
    (ps.foldl fcfsStep acc).rows = acc.rows ++ fcfsRows acc.serviceTime acc.waitingTime ps := by
  intro ps
  induction ps with
  | nil => intro acc; simp [fcfsRows]
  | cons p rest ih =>
    intro acc
    rw [List.foldl_cons, ih]
    by_cases h : p.ArrivalTime > 0 <;>
      simp [fcfsStep, fcfsRows, fcfsWait, h, List.append_assoc]

lemma fcfs_foldl_gantt : ∀ (ps : List Process) (acc : FCFSAcc),
    (ps.foldl fcfsStep acc).gantt = acc.gantt ++ fcfsGantt acc.serviceTime acc.waitingTime ps := by
  intro ps
  induction ps with
  | nil => intro acc; simp [fcfsGantt]
  | cons p rest ih =>
    intro acc
    rw [List.foldl_cons, ih]
    by_cases h : p.ArrivalTime > 0 <;>
      simp [fcfsStep, fcfsGantt, fcfsWait, h, List.append_assoc]

lemma FCFSSchedule_rows (ps : List Process) : (FCFSSchedule ps).rows = fcfsRows 0 0 ps := by
  simp [FCFSSchedule, fcfs_foldl_rows, fcfsInit]

lemma FCFSSchedule_gantt (ps : List Process) : (FCFSSchedule ps).gantt = fcfsGantt 0 0 ps := by
  simp [FCFSSchedule, fcfs_foldl_gantt, fcfsInit]

lemma fcfsGantt_start_le_stop : ∀ (ps : List Process) (s w : Int), w ≤ s →
    (∀ p ∈ ps, 0 ≤ p.ArrivalTime ∧ 0 < p.BurstDuration) →
    ∀ sl ∈ fcfsGantt s w ps, sl.Start ≤ sl.Stop := by
  intro ps
  induction ps with
  | nil => intro s w hw hps sl hsl; simp [fcfsGantt] at hsl
  | cons p rest ih =>
    intro s w hw hps sl hsl
    have hp := hps p (by simp)
    have hw2 : fcfsWait s w p ≤ s := by
      unfold fcfsWait
      split_ifs with h <;> omega
    simp only [fcfsGantt, List.mem_cons] at hsl
    rcases hsl with rfl | htl
    · show fcfsWait s w p + p.ArrivalTime ≤ s + p.BurstDuration
      unfold fcfsWait
      split_ifs with h <;> omega
    · exact ih (s + p.BurstDuration) (fcfsWait s w p) (by omega)
        (fun q hq => hps q (by simp [hq])) sl htl

/-- C6 (amended): with non-negative arrivals and positive bursts every Gantt
slice of `FCFSSchedule` satisfies `Start ≤ Stop`.  In the other three
algorithms the `Stop` field holds the turnaround time rather than the
completion time, so `Start ≤ Stop` fails whenever a process arrives late (see
the counterexample). -/
theorem fcfs_gantt_start_le_stop (ps : List Process)
    (h : ∀ p ∈ ps, 0 ≤ p.ArrivalTime ∧ 0 < p.BurstDuration) :
    ∀ sl ∈ (FCFSSchedule ps).gantt, sl.Start ≤ sl.Stop := by
  rw [FCFSSchedule_gantt]
  exact fcfsGantt_start_le_stop ps 0 0 le_rfl h

/-- C6 witness: the first slice of a concrete FCFS run. -/
theorem fcfs_gantt_start_le_stop_witness :
    ((FCFSSchedule [⟨1, 0, 5, 0⟩, ⟨2, 1, 3, 0⟩]).gantt.getD 0 default).Start ≤
      ((FCFSSchedule [⟨1, 0, 5, 0⟩, ⟨2, 1, 3, 0⟩]).gantt.getD 0 default).Stop :=
  fcfs_gantt_start_le_stop [⟨1, 0, 5, 0⟩, ⟨2, 1, 3, 0⟩] (by decide) _ (by decide)

lemma serviceBefore_cons (q : Process) (rest : List Process) (k : Nat) :
    serviceBefore (q :: rest) (k + 1) = q.BurstDuration + serviceBefore rest k := by
  simp [serviceBefore, List.take_succ_cons]

lemma fcfsRows_wait_spec : ∀ (ps : List Process) (s w : Int) (i : Nat) (p : Process)
    (row : ScheduleRow), ps[i]? = some p → (fcfsRows s w ps)[i]? = some row →
    (0 < p.ArrivalTime → row.wait = s + serviceBefore ps i - p.ArrivalTime) ∧
    (p.ArrivalTime = 0 →
      (i = 0 → row.wait = w) ∧
      (∀ j prev, i = j + 1 → (fcfsRows s w ps)[j]? = some prev → row.wait = prev.wait)) := by
  intro ps
  induction ps with
  | nil => intro s w i p row hp hrow; simp at hp
  | cons q rest ih =>
    intro s w i p row hp hrow
    cases i with
    | zero =>
      simp only [List.getElem?_cons_zero, Option.some_inj] at hp
      simp only [fcfsRows, List.getElem?_cons_zero, Option.some_inj] at hrow
      subst hp
      subst hrow
      constructor
      · intro harr
        simp only [fcfsWait, if_pos harr, serviceBefore, List.take_zero, List.map_nil,
          List.sum_nil]
        omega
      · intro harr
        refine ⟨fun _ => ?_, fun j prev hij _ => by omega⟩
        simp [fcfsWait, harr]
    | succ k =>
      simp only [List.getElem?_cons_succ] at hp
      simp only [fcfsRows, List.getElem?_cons_succ] at hrow
      have H := ih (s + q.BurstDuration) (fcfsWait s w q) k p row hp hrow
      constructor
      · intro harr
        have h1 := H.1 harr
        rw [serviceBefore_cons]
        omega
      · intro harr
        refine ⟨fun h0 => by omega, ?_⟩
        intro j prev hij hprev
        obtain rfl : k = j := by omega
        cases k with
        | zero =>
          have hr := (H.2 harr).1 rfl
          simp only [fcfsRows, List.getElem?_cons_zero, Option.some_inj] at hprev
          rw [hr, ← hprev]
        | succ m =>
          simp only [fcfsRows, List.getElem?_cons_succ] at hprev
          exact (H.2 harr).2 m prev rfl hprev

/-- C5 (amended): in `FCFSSchedule`, a process with positive arrival time is
assigned wait time equal to the cumulative service time accumulated before it
minus its arrival time; a process with arrival time 0 reports the
`waitingTime` value left over from the previous iteration (0 for the first
process), which need not be 0 and can be negative. -/
theorem fcfs_wait_rule (ps : List Process) (i : Nat) (p : Process) (row : ScheduleRow)
    (hp : ps[i]? = some p) (hrow : (FCFSSchedule ps).rows[i]? = some row) :
    (0 < p.ArrivalTime → row.wait = serviceBefore ps i - p.ArrivalTime) ∧
    (p.ArrivalTime = 0 →
      (i = 0 → row.wait = 0) ∧
      (∀ j prev, i = j + 1 → (FCFSSchedule ps).rows[j]? = some prev →
        row.wait = prev.wait)) := by
  rw [FCFSSchedule_rows] at hrow
  have H := fcfsRows_wait_spec ps 0 0 i p row hp hrow
  refine ⟨fun h => by simpa using H.1 h, fun h => ⟨(H.2 h).1, ?_⟩⟩
  intro j prev hij hprev
  rw [FCFSSchedule_rows] at hprev
  exact (H.2 h).2 j prev hij hprev

/-- C5 witness: the wait of the single process of a concrete run, with
positive arrival time. -/
theorem fcfs_wait_rule_witness :
    ((⟨1, 0, 5, 1, -1, 4, 5⟩ : ScheduleRow)).wait =
      serviceBefore [⟨1, 1, 5, 0⟩] 0 - (⟨1, 1, 5, 0⟩ : Process).ArrivalTime :=
  (fcfs_wait_rule [⟨1, 1, 5, 0⟩] 0 ⟨1, 1, 5, 0⟩ ⟨1, 0, 5, 1, -1, 4, 5⟩
    (by decide) (by decide)).1 (by decide)

lemma fcfsGantt_length : ∀ (ps : List Process) (s w : Int),
    (fcfsGantt s w ps).length = ps.length := by
  intro ps
  induction ps with
  | nil => intro s w; simp [fcfsGantt]
  | cons p rest ih => intro s w; simp [fcfsGantt, ih]

lemma fcfsGantt_pid : ∀ (ps : List Process) (s w : Int) (i : Nat) (p : Process)
    (sl : TimeSlice), ps[i]? = some p → (fcfsGantt s w ps)[i]? = some sl →
    sl.PID = p.ProcessID := by
  intro ps
  induction ps with
  | nil => intro s w i p sl hp hsl; simp at hp
  | cons q rest ih =>
    intro s w i p sl hp hsl
    cases i with
    | zero =>
      simp only [List.getElem?_cons_zero, Option.some_inj] at hp
      simp only [fcfsGantt, List.getElem?_cons_zero, Option.some_inj] at hsl
      subst hp
      subst hsl
      rfl
    | succ k =>
      simp only [List.getElem?_cons_succ] at hp
      simp only [fcfsGantt, List.getElem?_cons_succ] at hsl
      exact ih (s + q.BurstDuration) (fcfsWait s w q) k p sl hp hsl

lemma fcfsGantt_stop_start_pos : ∀ (ps : List Process) (s w : Int) (i : Nat) (p : Process)
    (sl : TimeSlice), (∀ q ∈ ps, 0 < q.ArrivalTime) → ps[i]? = some p →
    (fcfsGantt s w ps)[i]? = some sl → sl.Stop - sl.Start = p.BurstDuration := by
  intro ps
  induction ps with
  | nil => intro s w i p sl hpos hp hsl; simp at hp
  | cons q rest ih =>
    intro s w i p sl hpos hp hsl
    cases i with
    | zero =>
      simp only [List.getElem?_cons_zero, Option.some_inj] at hp
      simp only [fcfsGantt, List.getElem?_cons_zero, Option.some_inj] at hsl
      subst hp
      subst hsl
      dsimp only
      have harr := hpos _ (List.mem_cons_self _ _)
      simp only [fcfsWait, if_pos harr]
      omega
    | succ k =>
      simp only [List.getElem?_cons_succ] at hp
      simp only [fcfsGantt, List.getElem?_cons_succ] at hsl
      exact ih (s + q.BurstDuration) (fcfsWait s w q) k p sl
        (fun r hr => hpos r (by simp [hr])) hp hsl

lemma fcfsGantt_stop_start_top : ∀ (ps : List Process) (i : Nat) (p : Process)
    (sl : TimeSlice), (∀ q ∈ ps, 0 ≤ q.ArrivalTime) → (∀ q ∈ ps.drop 1, 0 < q.ArrivalTime) →
    ps[i]? = some p → (fcfsGantt 0 0 ps)[i]? = some sl →
    sl.Stop - sl.Start = p.BurstDuration := by
  intro ps i p sl h0 h1 hp hsl
  cases ps with
  | nil => simp at hp
  | cons q rest =>
    cases i with
    | zero =>
      simp only [List.getElem?_cons_zero, Option.some_inj] at hp
      simp only [fcfsGantt, List.getElem?_cons_zero, Option.some_inj] at hsl
      subst hp
      subst hsl
      dsimp only
      have harr := h0 _ (List.mem_cons_self _ _)
      simp only [fcfsWait]
      split_ifs with h <;> omega
    | succ k =>
      simp only [List.getElem?_cons_succ] at hp
      simp only [fcfsGantt, List.getElem?_cons_succ] at hsl
      exact fcfsGantt_stop_start_pos rest (0 + q.BurstDuration) (fcfsWait 0 0 q) k p sl
        (by simpa using h1) hp hsl

lemma loopFuel_inv {σ : Type} (step : σ → σ) (isDone : σ → Bool) (Inv : σ → Prop)
    (hstep : ∀ s, Inv s → Inv (step s)) :
    ∀ (fuel : Nat) (s : σ), Inv s → Inv (loopFuel step isDone fuel s) := by
  intro fuel
  induction fuel with
  | zero => intro s h; simpa [loopFuel] using h
  | succ f ih =>
    intro s h
    rw [loopFuel]
    split
    · exact h
    · exact ih _ (hstep s h)

lemma stepWith_lengths (sent : Int) (upd : Process → Int → ProcessStatus → ProcessStatus)
    (fin : ProcessStatus → ProcessStatus) (st : SimState) :
    ((stepWith sent upd fin st).procs).length = st.procs.length ∧
    ((stepWith sent upd fin st).status).length = st.status.length := by
  unfold stepWith
  split
  · exact ⟨rfl, rfl⟩
  · next i hsel =>
      constructor
      all_goals
        dsimp only
        split <;> simp [List.length_set]

lemma insertArr_length : ∀ (l : List Process) (p : Process),
    (insertArr p l).length = l.length + 1 := by
  intro l
  induction l with
  | nil => intro p; simp [insertArr]
  | cons q rest ih =>
    intro p
    simp only [insertArr]
    split_ifs <;> simp [ih]

lemma sortByArrival_length (ps : List Process) : (sortByArrival ps).length = ps.length := by
  induction ps with
  | nil => simp [sortByArrival]
  | cons p rest ih => simp [sortByArrival, insertArr_length, ih]

lemma sjfFinalState_lengths (ps : List Process) :
    (sjfFinalState ps).procs.length = ps.length ∧
    (sjfFinalState ps).status.length = ps.length := by
  exact loopFuel_inv sjfStep (simDone (sortByArrival ps).length)
    (fun st => st.procs.length = ps.length ∧ st.status.length = ps.length)
    (fun s hs => ⟨(stepWith_lengths sjfSentinel sjfUpd id s).1.trans hs.1,
      (stepWith_lengths sjfSentinel sjfUpd id s).2.trans hs.2⟩)
    (simFuel (sortByArrival ps)) (simInit (sortByArrival ps))
    ⟨sortByArrival_length ps, by simp [simInit, initStatus, sortByArrival_length]⟩

lemma sjfpFinalState_lengths (ps : List Process) :
    (sjfpFinalState ps).procs.length = ps.length ∧
    (sjfpFinalState ps).status.length = ps.length := by
  exact loopFuel_inv sjfpStep (simDone (sortByArrival ps).length)
    (fun st => st.procs.length = ps.length ∧ st.status.length = ps.length)
    (fun s hs => ⟨(stepWith_lengths sjfpSentinel sjfpUpd sjfpFinish s).1.trans hs.1,
      (stepWith_lengths sjfpSentinel sjfpUpd sjfpFinish s).2.trans hs.2⟩)
    (simFuel (sortByArrival ps)) (simInit (sortByArrival ps))
    ⟨sortByArrival_length ps, by simp [simInit, initStatus, sortByArrival_length]⟩

lemma build_rel : ∀ (procs orig : List Process) (status : List ProcessStatus) (i : Nat)
    (sl : TimeSlice) (row : ScheduleRow),
    (buildGantt procs status)[i]? = some sl → (buildRows procs orig status)[i]? = some row →
    sl.PID = row.pid ∧ sl.Start = row.wait + row.arrival ∧ sl.Stop = row.turnaround := by
  intro procs
  induction procs with
  | nil => intro orig status i sl row hsl hrow; simp [buildGantt] at hsl
  | cons p ps ih =>
    intro orig status i sl row hsl hrow
    cases orig with
    | nil => simp [buildRows] at hrow
    | cons o os =>
      cases status with
      | nil => simp [buildGantt] at hsl
      | cons s ss =>
        cases i with
        | zero =>
          simp only [buildGantt, buildRows, List.zip_cons_cons, List.map_cons,
            List.getElem?_cons_zero, Option.some_inj] at hsl hrow
          subst hsl
          subst hrow
          refine ⟨rfl, ?_, rfl⟩
          simp only [simOutRow, simOutSlice]
          omega
        | succ k =>
          simp only [buildGantt, buildRows, List.zip_cons_cons, List.map_cons,
            List.getElem?_cons_succ] at hsl hrow
          exact ih os ss k sl row hsl hrow

/-- C4 (amended): both non-preemptive-style algorithms emit exactly one
TimeSlice per process (as many slices as processes, the i-th slice carrying
the i-th process id).  For `FCFSSchedule` the slice satisfies
`Stop - Start = BurstDuration` provided all arrivals are non-negative and
every process after the first has positive arrival time (a later process with
arrival 0 inherits a stale `waitingTime`, see the counterexample).  For
`SJFSchedule` the slice records the turnaround in `Stop` and the last
dispatch in `Start` (so `Stop - Start = BurstDuration` fails in general):
its slice agrees with the table row via `Start = Wait + Arrival` and
`Stop = Turnaround`. -/
theorem nonpreemptive_one_slice (ps : List Process) :
    ((FCFSSchedule ps).gantt.length = ps.length ∧
      (∀ (i : Nat) (p : Process) (sl : TimeSlice),
        ps[i]? = some p → (FCFSSchedule ps).gantt[i]? = some sl →
        sl.PID = p.ProcessID ∧
        ((∀ q ∈ ps, 0 ≤ q.ArrivalTime) → (∀ q ∈ ps.drop 1, 0 < q.ArrivalTime) →
          sl.Stop - sl.Start = p.BurstDuration))) ∧
    ((SJFSchedule ps).gantt.length = ps.length ∧
      (SJFSchedule ps).rows.length = ps.length ∧
      (∀ (i : Nat) (sl : TimeSlice) (row : ScheduleRow),
        (SJFSchedule ps).gantt[i]? = some sl →
        (SJFSchedule ps).rows[i]? = some row →
        sl.PID = row.pid ∧ sl.Start = row.wait + row.arrival ∧
          sl.Stop = row.turnaround)) := by
  refine ⟨⟨?_, ?_⟩, ?_, ?_, ?_⟩
  · rw [FCFSSchedule_gantt]
    exact fcfsGantt_length ps 0 0
  · intro i p sl hp hsl
    rw [FCFSSchedule_gantt] at hsl
    exact ⟨fcfsGantt_pid ps 0 0 i p sl hp hsl,
      fun h1 h2 => fcfsGantt_stop_start_top ps i p sl h1 h2 hp hsl⟩
  · show (buildGantt (sjfFinalState ps).procs (sjfFinalState ps).status).length = ps.length
    simp [buildGantt, List.length_zip, (sjfFinalState_lengths ps).1,
      (sjfFinalState_lengths ps).2]
  · show (buildRows (sjfFinalState ps).procs (sortByArrival ps)
      (sjfFinalState ps).status).length = ps.length
    simp [buildRows, List.length_zip, (sjfFinalState_lengths ps).1,
      (sjfFinalState_lengths ps).2, sortByArrival_length]
  · intro i sl row hsl hrow
    have hsl2 : (buildGantt (sjfFinalState ps).procs (sjfFinalState ps).status)[i]? =
      some sl := hsl
    have hrow2 : (buildRows (sjfFinalState ps).procs (sortByArrival ps)
      (sjfFinalState ps).status)[i]? = some row := hrow
    exact build_rel _ _ _ i sl row hsl2 hrow2

/-- C4 witness: the single slice of a concrete FCFS run is contiguous. -/
theorem nonpreemptive_one_slice_witness :
    (⟨1, 0, 2⟩ : TimeSlice).Stop - (⟨1, 0, 2⟩ : TimeSlice).Start =
      (⟨1, 1, 2, 0⟩ : Process).BurstDuration :=
  ((nonpreemptive_one_slice [⟨1, 1, 2, 0⟩]).1.2 0 ⟨1, 1, 2, 0⟩ ⟨1, 0, 2⟩ (by decide)
    (by decide)).2 (by decide) (by decide)

lemma getElem?_lt {α : Type} : ∀ (l : List α) (k : Nat) (a : α),
    l[k]? = some a → k < l.length := by
  intro l
  induction l with
  | nil => intro k a h; simp at h
  | cons x xs ih =>
    intro k a h
    cases k with
    | zero => simp
    | succ m => exact Nat.succ_lt_succ (ih m a (by simpa using h))

lemma getD_of_getElem? {α : Type} [Inhabited α] : ∀ (l : List α) (k : Nat) (a : α),
    l[k]? = some a → l.getD k default = a := by
  intro l
  induction l with
  | nil => intro k a h; simp at h
  | cons x xs ih =>
    intro k a h
    cases k with
    | zero => simpa using h
    | succ m => simpa using ih m a (by simpa using h)

lemma getElem?_of_lt {α : Type} [Inhabited α] : ∀ (l : List α) (k : Nat),
    k < l.length → l[k]? = some (l.getD k default) := by
  intro l
  induction l with
  | nil => intro k h; simp at h
  | cons x xs ih =>
    intro k h
    cases k with
    | zero => simp
    | succ m => simpa using ih m (by simpa using h)

lemma zip_getElem?_some {α β : Type} : ∀ (l : List α) (m : List β) (k : Nat) (e : α × β),
    (l.zip m)[k]? = some e → l[k]? = some e.1 ∧ m[k]? = some e.2 := by
  intro l
  induction l with
  | nil => intro m k e h; simp at h
  | cons x xs ih =>
    intro m k e h
    cases m with
    | nil => simp at h
    | cons y ys =>
      cases k with
      | zero =>
        simp only [List.zip_cons_cons, List.getElem?_cons_zero, Option.some_inj] at h
        subst h
        exact ⟨by simp, by simp⟩
      | succ n =>
        simp only [List.zip_cons_cons, List.getElem?_cons_succ] at h ⊢
        exact ih ys n e h

lemma zip_getElem?_of {α β : Type} : ∀ (l : List α) (m : List β) (k : Nat) (a : α) (b : β),
    l[k]? = some a → m[k]? = some b → (l.zip m)[k]? = some (a, b) := by
  intro l
  induction l with
  | nil => intro m k a b h1 h2; simp at h1
  | cons x xs ih =>
    intro m k a b h1 h2
    cases m with
    | nil => simp at h2
    | cons y ys =>
      cases k with
      | zero =>
        simp only [List.getElem?_cons_zero, Option.some_inj] at h1 h2
        subst h1
        subst h2
        simp
      | succ n =>
        simp only [List.zip_cons_cons, List.getElem?_cons_succ] at h1 h2 ⊢
        exact ih ys n a b h1 h2

lemma scanShortest_char (t : Int) : ∀ (l : List (Process × ProcessStatus)) (i : Nat)
    (acc : Option Nat × Int),
    (scanShortest t l i acc = acc ∧
      ∀ (k : Nat) (e : Process × ProcessStatus), l[k]? = some e → okPair t e →
        ¬ (e.1.BurstDuration < acc.2)) ∨
    (∃ (k : Nat) (e : Process × ProcessStatus), l[k]? = some e ∧
      (scanShortest t l i acc).1 = some (i + k) ∧
      (scanShortest t l i acc).2 = e.1.BurstDuration ∧
      okPair t e ∧ e.1.BurstDuration < acc.2 ∧
      (∀ (m : Nat) (f : Process × ProcessStatus), l[m]? = some f → okPair t f →
        (scanShortest t l i acc).2 ≤ f.1.BurstDuration) ∧
      (∀ (m : Nat) (f : Process × ProcessStatus), m < k → l[m]? = some f → okPair t f →
        (scanShortest t l i acc).2 < f.1.BurstDuration)) := by
  intro l
  induction l with
  | nil =>
    intro i acc
    exact Or.inl ⟨rfl, fun k e h => by simp at h⟩
  | cons e rest ih =>
    intro i acc
    by_cases hc : e.1.ArrivalTime ≤ t ∧ e.2.EndTime = 0 ∧ e.1.BurstDuration < acc.2
    · have heq : scanShortest t (e :: rest) i acc =
        scanShortest t rest (i + 1) (some i, e.1.BurstDuration) := by
        rw [scanShortest, if_pos hc]
      rcases ih (i + 1) (some i, e.1.BurstDuration) with ⟨h1, h2⟩ |
        ⟨k, f, hkf, hr1, hr2, hok, hlt, hmin, hfirst⟩
      · refine Or.inr ⟨0, e, by simp, ?_, ?_, ⟨hc.1, hc.2.1⟩, hc.2.2, ?_, ?_⟩
        · rw [heq, h1]
          simp
        · rw [heq, h1]
        · intro m f hmf hokf
          rw [heq, h1]
          cases m with
          | zero =>
            simp only [List.getElem?_cons_zero, Option.some_inj] at hmf
            subst hmf
            simp
          | succ n =>
            simp only [List.getElem?_cons_succ] at hmf
            simpa using not_lt.mp (h2 n f hmf hokf)
        · intro m f hmk hmf hokf
          omega
      · refine Or.inr ⟨k + 1, f, by simpa using hkf, ?_, ?_, hok, lt_trans hlt hc.2.2, ?_, ?_⟩
        · rw [heq, hr1]
          have : i + 1 + k = i + (k + 1) := by omega
          rw [this]
        · rw [heq, hr2]
        · intro m g hmg hokg
          rw [heq]
          cases m with
          | zero =>
            simp only [List.getElem?_cons_zero, Option.some_inj] at hmg
            subst hmg
            exact le_of_lt (hr2 ▸ hlt)
          | succ n =>
            simp only [List.getElem?_cons_succ] at hmg
            exact hmin n g hmg hokg
        · intro m g hmk hmg hokg
          rw [heq]
          cases m with
          | zero =>
            simp only [List.getElem?_cons_zero, Option.some_inj] at hmg
            subst hmg
            exact hr2 ▸ hlt
          | succ n =>
            simp only [List.getElem?_cons_succ] at hmg
            exact hfirst n g (by omega) hmg hokg
    · have heq : scanShortest t (e :: rest) i acc = scanShortest t rest (i + 1) acc := by
        rw [scanShortest, if_neg hc]
      rcases ih (i + 1) acc with ⟨h1, h2⟩ |
        ⟨k, f, hkf, hr1, hr2, hok, hlt, hmin, hfirst⟩
      · refine Or.inl ⟨heq.trans h1, ?_⟩
        intro k g hkg hokg
        cases k with
        | zero =>
          simp only [List.getElem?_cons_zero, Option.some_inj] at hkg
          subst hkg
          intro hb
          exact hc ⟨hokg.1, hokg.2, hb⟩
        | succ n =>
          simp only [List.getElem?_cons_succ] at hkg
          exact h2 n g hkg hokg
      · have hacc : acc.2 ≤ e.1.BurstDuration ∨ ¬ okPair t e := by
          by_cases hok2 : okPair t e
          · left
            by_contra hcon
            exact hc ⟨hok2.1, hok2.2, by omega⟩
          · right
            exact hok2
        refine Or.inr ⟨k + 1, f, by simpa using hkf, ?_, ?_, hok, hlt, ?_, ?_⟩
        · rw [heq, hr1]
          have : i + 1 + k = i + (k + 1) := by omega
          rw [this]
        · rw [heq, hr2]
        · intro m g hmg hokg
          rw [heq]
          cases m with
          | zero =>
            simp only [List.getElem?_cons_zero, Option.some_inj] at hmg
            subst hmg
            rcases hacc with ha | ha
            · have : (scanShortest t rest (i + 1) acc).2 < acc.2 := hr2 ▸ hlt
              omega
            · exact absurd hokg ha
          | succ n =>
            simp only [List.getElem?_cons_succ] at hmg
            exact hmin n g hmg hokg
        · intro m g hmk hmg hokg
          rw [heq]
          cases m with
          | zero =>
            simp only [List.getElem?_cons_zero, Option.some_inj] at hmg
            subst hmg
            rcases hacc with ha | ha
            · have : (scanShortest t rest (i + 1) acc).2 < acc.2 := hr2 ▸ hlt
              omega
            · exact absurd hokg ha
          | succ n =>
            simp only [List.getElem?_cons_succ] at hmg
            exact hfirst n g (by omega) hmg hokg

lemma selectIdx_some_spec (sent : Int) (procs : List Process) (status : List ProcessStatus)
    (t : Int) (j : Nat) (hlen : status.length = procs.length)
    (h : selectIdx sent procs status t = some j) :
    eligAt procs status t j ∧ remAt procs j < sent ∧
    (∀ i, eligAt procs status t i → remAt procs j ≤ remAt procs i) ∧
    (∀ i, i < j → eligAt procs status t i → remAt procs j < remAt procs i) := by
  rcases scanShortest_char t (procs.zip status) 0 (none, sent) with ⟨h1, _⟩ |
    ⟨k, e, hke, hr1, hr2, hok, hlt, hmin, hfirst⟩
  · unfold selectIdx at h
    rw [h1] at h
    simp at h
  · unfold selectIdx at h
    rw [hr1] at h
    simp only [Nat.zero_add, Option.some_inj] at h
    subst h
    obtain ⟨hp, hs⟩ := zip_getElem?_some procs status k e hke
    have hpd := getD_of_getElem? procs k e.1 hp
    have hsd := getD_of_getElem? status k e.2 hs
    have hklt := getElem?_lt procs k e.1 hp
    refine ⟨⟨hklt, by rw [hpd]; exact hok.1, by rw [hsd]; exact hok.2⟩,
      by rw [remAt, hpd, ← hr2]; exact hr2 ▸ hlt, ?_, ?_⟩
    · intro i hi
      have hip := getElem?_of_lt procs i hi.1
      have his := getElem?_of_lt status i (by rw [hlen]; exact hi.1)
      have hzip := zip_getElem?_of procs status i _ _ hip his
      have := hmin i _ hzip ⟨hi.2.1, hi.2.2⟩
      rw [remAt, hpd, ← hr2]
      exact this
    · intro i hij hi
      have hip := getElem?_of_lt procs i hi.1
      have his := getElem?_of_lt status i (by rw [hlen]; exact hi.1)
      have hzip := zip_getElem?_of procs status i _ _ hip his
      have := hfirst i _ hij hzip ⟨hi.2.1, hi.2.2⟩
      rw [remAt, hpd, ← hr2]
      exact this

lemma selectIdx_none_spec (sent : Int) (procs : List Process) (status : List ProcessStatus)
    (t : Int) (hlen : status.length = procs.length)
    (h : selectIdx sent procs status t = none) :
    ∀ i, eligAt procs status t i → sent ≤ remAt procs i := by
  rcases scanShortest_char t (procs.zip status) 0 (none, sent) with ⟨h1, h2⟩ |
    ⟨k, e, hke, hr1, hr2, hok, hlt, hmin, hfirst⟩
  · intro i hi
    have hip := getElem?_of_lt procs i hi.1
    have his := getElem?_of_lt status i (by rw [hlen]; exact hi.1)
    have hzip := zip_getElem?_of procs status i _ _ hip his
    have := h2 i _ hzip ⟨hi.2.1, hi.2.2⟩
    exact not_lt.mp this
  · unfold selectIdx at h
    rw [hr1] at h
    simp at h

lemma stepWith_none (sent : Int) (upd : Process → Int → ProcessStatus → ProcessStatus)
    (fin : ProcessStatus → ProcessStatus) (st : SimState)
    (h : selectIdx sent st.procs st.status st.time = none) :
    stepWith sent upd fin st =
      { st with time := st.time + 1, trace := st.trace ++ [(st.time, none)] } := by
  simp only [stepWith, h]

/-- C2 (amended): at each time unit `SJFSchedule` selects, among the arrived
processes without recorded end time, the one with the smallest REMAINING
burst duration (the scanned copy is decremented as it runs, so the comparison
is not against the full original burst), ties broken by the first index after
the arrival sort; when no process qualifies, the step only advances the time
by one unit, performing no work. -/
theorem sjf_selection_rule (procs : List Process) (status : List ProcessStatus) (t : Int)
    (hlen : status.length = procs.length) :
    (∀ j, selectIdx sjfSentinel procs status t = some j →
      eligAt procs status t j ∧ remAt procs j < sjfSentinel ∧
      (∀ i, eligAt procs status t i → remAt procs j ≤ remAt procs i) ∧
      (∀ i, i < j → eligAt procs status t i → remAt procs j < remAt procs i)) ∧
    (selectIdx sjfSentinel procs status t = none →
      (∀ i, eligAt procs status t i → sjfSentinel ≤ remAt procs i) ∧
      (∀ st : SimState, st.procs = procs → st.status = status → st.time = t →
        sjfStep st = { st with time := st.time + 1,
                               trace := st.trace ++ [(st.time, none)] })) := by
  refine ⟨fun j hj => selectIdx_some_spec sjfSentinel procs status t j hlen hj,
    fun hn => ⟨selectIdx_none_spec sjfSentinel procs status t hlen hn, ?_⟩⟩
  intro st h1 h2 h3
  exact stepWith_none sjfSentinel sjfUpd id st (by rw [h1, h2, h3]; exact hn)

/-- C2 witness: on two processes both arrived at time 0 with remaining bursts
5 and 3, the scan selects index 1 and its burst is minimal. -/
theorem sjf_selection_rule_witness :
    remAt [⟨1, 0, 5, 0⟩, ⟨2, 0, 3, 0⟩] 1 ≤ remAt [⟨1, 0, 5, 0⟩, ⟨2, 0, 3, 0⟩] 0 :=
  (((sjf_selection_rule [⟨1, 0, 5, 0⟩, ⟨2, 0, 3, 0⟩] [⟨0, 0, 0⟩, ⟨0, 0, 0⟩] 0
    (by decide)).1 1 (by decide)).2.2.1) 0 (by decide)

lemma insertArr_rel {p q : Process} {l m : List Process} (hpq : samePAB p q)
    (h : List.Forall₂ samePAB l m) :
    List.Forall₂ samePAB (insertArr p l) (insertArr q m) := by
  induction h with
  | nil => exact List.Forall₂.cons hpq List.Forall₂.nil
  | @cons x y l2 m2 hxy hrest ih =>
    simp only [insertArr]
    by_cases hle : q.ArrivalTime ≤ y.ArrivalTime
    · rw [if_pos (by rw [hpq.2.1, hxy.2.1]; exact hle), if_pos hle]
      exact List.Forall₂.cons hpq (List.Forall₂.cons hxy hrest)
    · rw [if_neg (by rw [hpq.2.1, hxy.2.1]; exact hle), if_neg hle]
      exact List.Forall₂.cons hxy ih

lemma sortByArrival_rel {l m : List Process} (h : List.Forall₂ samePAB l m) :
    List.Forall₂ samePAB (sortByArrival l) (sortByArrival m) := by
  induction h with
  | nil => exact List.Forall₂.nil
  | cons hxy hrest ih => exact insertArr_rel hxy ih

lemma zip_status_rel {l m : List Process} (h : List.Forall₂ samePAB l m) :
    ∀ s : List ProcessStatus,
      List.Forall₂ (fun e f => samePAB e.1 f.1 ∧ e.2 = f.2) (l.zip s) (m.zip s) := by
  induction h with
  | nil => intro s; simp [List.Forall₂.nil]
  | cons hxy hrest ih =>
    intro s
    cases s with
    | nil => simp [List.Forall₂.nil]
    | cons a as => exact List.Forall₂.cons ⟨hxy, rfl⟩ (ih as)

lemma scanShortest_rel (t : Int) {l m : List (Process × ProcessStatus)}
    (h : List.Forall₂ (fun e f => samePAB e.1 f.1 ∧ e.2 = f.2) l m) :
    ∀ (i : Nat) (acc : Option Nat × Int), scanShortest t l i acc = scanShortest t m i acc := by
  induction h with
  | nil => intro i acc; rfl
  | @cons e f l2 m2 hef hrest ih =>
    intro i acc
    simp only [scanShortest]
    rw [show e.1.ArrivalTime = f.1.ArrivalTime from hef.1.2.1,
      show e.2 = f.2 from hef.2, show e.1.BurstDuration = f.1.BurstDuration from hef.1.2.2]
    by_cases hc : f.1.ArrivalTime ≤ t ∧ f.2.EndTime = 0 ∧ f.1.BurstDuration < acc.2
    · rw [if_pos hc, if_pos hc, ih]
    · rw [if_neg hc, if_neg hc, ih]

lemma selectIdx_rel (sent : Int) {procs procs2 : List Process}
    (h : List.Forall₂ samePAB procs procs2) (status : List ProcessStatus) (t : Int) :
    selectIdx sent procs status t = selectIdx sent procs2 status t := by
  unfold selectIdx
  rw [scanShortest_rel t (zip_status_rel h status) 0 (none, sent)]

lemma getD_rel {l m : List Process} (h : List.Forall₂ samePAB l m) :
    ∀ i : Nat, samePAB (l.getD i default) (m.getD i default) := by
  induction h with
  | nil => intro i; exact ⟨rfl, rfl, rfl⟩
  | cons hxy hrest ih =>
    intro i
    cases i with
    | zero => simpa using hxy
    | succ k => simpa using ih k

lemma set_rel {R : Process → Process → Prop} {l m : List Process}
    (h : List.Forall₂ R l m) {a b : Process} (hab : R a b) :
    ∀ i : Nat, List.Forall₂ R (l.set i a) (m.set i b) := by
  induction h with
  | nil => intro i; exact List.Forall₂.nil
  | cons hxy hrest ih =>
    intro i
    cases i with
    | zero => exact List.Forall₂.cons hab hrest
    | succ k => exact List.Forall₂.cons hxy (ih k)

lemma sjfpStep_rel (st st2 : SimState) (h : simRel st st2) :
    simRel (sjfpStep st) (sjfpStep st2) := by
  obtain ⟨hprocs, hstatus, htime, hcompleted, htw, htt, htr⟩ := h
  have hsel : selectIdx sjfpSentinel st.procs st.status st.time =
      selectIdx sjfpSentinel st2.procs st2.status st2.time := by
    rw [← hstatus, ← htime]
    exact selectIdx_rel sjfpSentinel hprocs st.status st.time
  unfold sjfpStep stepWith
  cases hs : selectIdx sjfpSentinel st.procs st.status st.time with
  | none =>
    rw [hs] at hsel
    rw [← hsel]
    exact ⟨hprocs, by simp [hstatus], by simp [htime], by simp [hcompleted],
      by simp [htw], by simp [htt], by simp [htr, htime]⟩
  | some i =>
    rw [hs] at hsel
    rw [← hsel]
    have hpd := getD_rel hprocs i
    have hupd : sjfpUpd (st.procs.getD i default) st.time (st.status.getD i default) =
        sjfpUpd (st2.procs.getD i default) st2.time (st2.status.getD i default) := by
      unfold sjfpUpd
      rw [hpd.1, hstatus, htime]
    have hburst : (st.procs.getD i default).BurstDuration =
        (st2.procs.getD i default).BurstDuration := hpd.2.2
    have harr : (st.procs.getD i default).ArrivalTime =
        (st2.procs.getD i default).ArrivalTime := hpd.2.1
    have hsetRel : samePAB
        { st.procs.getD i default with
          BurstDuration := (st.procs.getD i default).BurstDuration - 1 }
        { st2.procs.getD i default with
          BurstDuration := (st2.procs.getD i default).BurstDuration - 1 } :=
      ⟨hpd.1, harr, by rw [hburst]⟩
    have hset : List.Forall₂ samePAB
        (st.procs.set i { st.procs.getD i default with
          BurstDuration := (st.procs.getD i default).BurstDuration - 1 })
        (st2.procs.set i { st2.procs.getD i default with
          BurstDuration := (st2.procs.getD i default).BurstDuration - 1 }) :=
      set_rel hprocs hsetRel i
    have hsEq : sjfpFinish { sjfpUpd (st.procs.getD i default) st.time
        (st.status.getD i default) with EndTime := st.time + 1 } =
        sjfpFinish { sjfpUpd (st2.procs.getD i default) st2.time
        (st2.status.getD i default) with EndTime := st2.time + 1 } := by
      rw [hupd, htime]
    dsimp only
    by_cases hb : (st.procs.getD i default).BurstDuration - 1 = 0
    · rw [if_pos hb, if_pos (show (st2.procs.getD i default).BurstDuration - 1 = 0 by
        rw [← hburst]; exact hb)]
      exact ⟨hset, by rw [hsEq, hstatus], by rw [htime], by rw [hcompleted],
        by rw [htw, hsEq, harr], by rw [htt, hsEq, harr], by rw [htr, htime]⟩
    · rw [if_neg hb, if_neg (show ¬ (st2.procs.getD i default).BurstDuration - 1 = 0 by
        rw [← hburst]; exact hb)]
      exact ⟨hset, by rw [hupd, hstatus], by rw [htime], by rw [hcompleted],
        htw, htt, by rw [htr, htime]⟩

lemma sjfp_loop_rel (n : Nat) : ∀ (fuel : Nat) (st st2 : SimState), simRel st st2 →
    simRel (loopFuel sjfpStep (simDone n) fuel st)
      (loopFuel sjfpStep (simDone n) fuel st2) := by
  intro fuel
  induction fuel with
  | zero => intro st st2 h; simpa [loopFuel] using h
  | succ f ih =>
    intro st st2 h
    have hd : simDone n st = simDone n st2 := by
      unfold simDone
      rw [h.2.2.2.1]
    rw [loopFuel, loopFuel, ← hd]
    cases hdn : simDone n st
    · simp only [Bool.false_eq_true, if_false]
      exact ih _ _ (sjfpStep_rel st st2 h)
    · simp only [if_true]
      exact h

lemma totalBurstNat_rel {l m : List Process} (h : List.Forall₂ samePAB l m) :
    totalBurstNat l = totalBurstNat m := by
  induction h with
  | nil => rfl
  | cons hxy hrest ih =>
    simp only [totalBurstNat, List.map_cons, List.sum_cons] at ih ⊢
    rw [hxy.2.2, ih]

lemma maxArrival_foldl_rel {l m : List Process} (h : List.Forall₂ samePAB l m) :
    ∀ a : Int, l.foldl (fun acc p => max acc p.ArrivalTime) a =
      m.foldl (fun acc p => max acc p.ArrivalTime) a := by
  induction h with
  | nil => intro a; rfl
  | cons hxy hrest ih =>
    intro a
    simp only [List.foldl_cons]
    rw [hxy.2.1, ih]

lemma simFuel_rel {l m : List Process} (h : List.Forall₂ samePAB l m) :
    simFuel l = simFuel m := by
  unfold simFuel maxArrival
  rw [totalBurstNat_rel h, maxArrival_foldl_rel h 0]

lemma simInit_rel {l m : List Process} (h : List.Forall₂ samePAB l m) :
    simRel (simInit l) (simInit m) :=
  ⟨h, by rw [simInit, simInit, initStatus, initStatus, List.Forall₂.length_eq h],
    rfl, rfl, rfl, rfl, rfl⟩

lemma sjfpFinalState_rel (ps qs : List Process) (h : List.Forall₂ samePAB ps qs) :
    simRel (sjfpFinalState ps) (sjfpFinalState qs) := by
  have hs := sortByArrival_rel h
  show simRel
    (loopFuel sjfpStep (simDone (sortByArrival ps).length) (simFuel (sortByArrival ps))
      (simInit (sortByArrival ps)))
    (loopFuel sjfpStep (simDone (sortByArrival qs).length) (simFuel (sortByArrival qs))
      (simInit (sortByArrival qs)))
  rw [show (sortByArrival qs).length = (sortByArrival ps).length from
    (List.Forall₂.length_eq hs).symm,
    show simFuel (sortByArrival qs) = simFuel (sortByArrival ps) from (simFuel_rel hs).symm]
  exact sjfp_loop_rel _ _ _ _ (simInit_rel hs)

lemma buildGantt_rel {procs procs2 : List Process}
    (h : List.Forall₂ samePAB procs procs2) :
    ∀ status : List ProcessStatus, buildGantt procs status = buildGantt procs2 status := by
  induction h with
  | nil => intro status; rfl
  | @cons x y l m hxy hrest ih =>
    intro status
    cases status with
    | nil => rfl
    | cons s ss =>
      have htail := ih ss
      simp only [buildGantt, List.zip_cons_cons, List.map_cons] at htail ⊢
      rw [show simOutSlice x s = simOutSlice y s from by
        unfold simOutSlice; rw [hxy.1, hxy.2.1], htail]

lemma buildRows_wait_turn_rel {procs procs2 : List Process}
    (h1 : List.Forall₂ samePAB procs procs2) :
    ∀ {orig orig2 : List Process}, List.Forall₂ samePAB orig orig2 →
    ∀ status : List ProcessStatus,
      (buildRows procs orig status).map (fun r => r.wait) =
        (buildRows procs2 orig2 status).map (fun r => r.wait) ∧
      (buildRows procs orig status).map (fun r => r.turnaround) =
        (buildRows procs2 orig2 status).map (fun r => r.turnaround) := by
  induction h1 with
  | nil => intro orig orig2 h2 status; exact ⟨rfl, rfl⟩
  | @cons x y l m hxy hrest ih =>
    intro orig orig2 h2 status
    cases h2 with
    | nil => exact ⟨rfl, rfl⟩
    | @cons o o2 os os2 hoo horest =>
      cases status with
      | nil => exact ⟨rfl, rfl⟩
      | cons s ss =>
        have htail := ih horest ss
        simp only [buildRows, List.zip_cons_cons, List.map_cons] at htail ⊢
        constructor
        · rw [show (simOutRow x o s).wait = (simOutRow y o2 s).wait from by
            unfold simOutRow; dsimp only; rw [hxy.2.1], htail.1]
        · rw [show (simOutRow x o s).turnaround = (simOutRow y o2 s).turnaround from by
            unfold simOutRow; dsimp only; rw [hxy.2.1], htail.2]

/-- C9: the scheduling decisions and published timing outputs of
`SJFPrioritySchedule` ignore the `Priority` field: two inputs that agree on
ids, arrivals and bursts (and differ arbitrarily in priorities) produce the
same status array (start and end times), wait and turnaround columns, total
wait and turnaround, throughput divisor, and Gantt timeline.  Selection is by
remaining burst duration only. -/
theorem sjfp_ignores_priority (ps qs : List Process)
    (h : List.Forall₂ samePAB ps qs) :
    sjfpObservables ps = sjfpObservables qs := by
  have hs := sortByArrival_rel h
  obtain ⟨hprocs, hstatus, htime, hcompleted, htw, htt, htr⟩ := sjfpFinalState_rel ps qs h
  unfold sjfpObservables
  simp only [Prod.mk.injEq]
  refine ⟨hstatus, ?_, ?_, ?_, ?_, ?_, ?_⟩
  · show (buildRows (sjfpFinalState ps).procs (sortByArrival ps)
      (sjfpFinalState ps).status).map (fun r => r.wait) =
      (buildRows (sjfpFinalState qs).procs (sortByArrival qs)
      (sjfpFinalState qs).status).map (fun r => r.wait)
    rw [hstatus]
    exact (buildRows_wait_turn_rel hprocs hs ((sjfpFinalState qs).status)).1
  · show (buildRows (sjfpFinalState ps).procs (sortByArrival ps)
      (sjfpFinalState ps).status).map (fun r => r.turnaround) =
      (buildRows (sjfpFinalState qs).procs (sortByArrival qs)
      (sjfpFinalState qs).status).map (fun r => r.turnaround)
    rw [hstatus]
    exact (buildRows_wait_turn_rel hprocs hs ((sjfpFinalState qs).status)).2
  · exact htw
  · exact htt
  · exact htime
  · show buildGantt (sjfpFinalState ps).procs (sjfpFinalState ps).status =
      buildGantt (sjfpFinalState qs).procs (sjfpFinalState qs).status
    rw [hstatus]
    exact buildGantt_rel hprocs ((sjfpFinalState qs).status)

/-- C9 witness: two concrete two-process inputs differing only in priorities
give identical observables. -/
theorem sjfp_ignores_priority_witness :
    sjfpObservables [⟨1, 0, 4, 5⟩, ⟨2, 1, 2, 7⟩] =
      sjfpObservables [⟨1, 0, 4, 1⟩, ⟨2, 1, 2, 2⟩] :=
  sjfp_ignores_priority [⟨1, 0, 4, 5⟩, ⟨2, 1, 2, 7⟩] [⟨1, 0, 4, 1⟩, ⟨2, 1, 2, 2⟩]
    (List.Forall₂.cons ⟨rfl, rfl, rfl⟩
      (List.Forall₂.cons ⟨rfl, rfl, rfl⟩ List.Forall₂.nil))

lemma getD_mem {α : Type} [Inhabited α] (l : List α) (i : Nat) (h : i < l.length) :
    l.getD i default ∈ l :=
  mem_of_getElem? l i _ (getElem?_of_lt l i h)

lemma sum_map_set {α : Type} [Inhabited α] : ∀ (l : List α) (i : Nat) (a : α) (f : α → Nat),
    i < l.length →
    ((l.set i a).map f).sum + f (l.getD i default) = (l.map f).sum + f a := by
  intro l
  induction l with
  | nil => intro i a f h; simp at h
  | cons x xs ih =>
    intro i a f h
    cases i with
    | zero => simp [List.set]; omega
    | succ k =>
      simp only [List.set, List.map_cons, List.sum_cons, List.getD_cons_succ]
      have := ih k a f (by simpa using h)
      omega

lemma zip_set {α β : Type} : ∀ (l : List α) (m : List β) (i : Nat) (a : α) (b : β),
    (l.set i a).zip (m.set i b) = (l.zip m).set i (a, b) := by
  intro l
  induction l with
  | nil => intro m i a b; simp
  | cons x xs ih =>
    intro m i a b
    cases m with
    | nil => simp
    | cons y ys =>
      cases i with
      | zero =>
        simp [List.set]
        rfl
      | succ k =>
        simp only [List.set, List.zip_cons_cons]
        rw [ih ys k a b]
        rfl

lemma countP_set {α : Type} [Inhabited α] : ∀ (l : List α) (i : Nat) (a : α) (p : α → Bool),
    i < l.length →
    (l.set i a).countP p + (if p (l.getD i default) then 1 else 0) =
      l.countP p + (if p a then 1 else 0) := by
  intro l
  induction l with
  | nil => intro i a p h; simp at h
  | cons x xs ih =>
    intro i a p h
    cases i with
    | zero =>
      simp only [List.set, List.getD_cons_zero, List.countP_cons]
      omega
    | succ k =>
      simp only [List.set, List.getD_cons_succ, List.countP_cons]
      have := ih k a p (by simpa using h)
      omega

lemma exists_incomplete_of_countP_lt {α : Type} [Inhabited α] :
    ∀ (l : List α) (p : α → Bool), l.countP p < l.length →
    ∃ i, i < l.length ∧ p (l.getD i default) = false := by
  intro l
  induction l with
  | nil => intro p h; simp at h
  | cons x xs ih =>
    intro p h
    cases hx : p x
    · exact ⟨0, by simp, by simpa using hx⟩
    · rw [List.countP_cons, hx] at h
      obtain ⟨i, hi, hpi⟩ := ih p (by simp at h ⊢; omega)
      exact ⟨i + 1, by simpa using hi, by simpa using hpi⟩

lemma getD_set_self {α : Type} [Inhabited α] : ∀ (l : List α) (i : Nat) (a : α),
    i < l.length → (l.set i a).getD i default = a := by
  intro l
  induction l with
  | nil => intro i a h; simp at h
  | cons x xs ih =>
    intro i a h
    cases i with
    | zero => simp [List.set]
    | succ k =>
      simp only [List.set, List.getD_cons_succ]
      exact ih k a (by simpa using h)

lemma getD_set_other {α : Type} [Inhabited α] : ∀ (l : List α) (i j : Nat) (a : α),
    i ≠ j → (l.set i a).getD j default = l.getD j default := by
  intro l
  induction l with
  | nil => intro i j a h; simp
  | cons x xs ih =>
    intro i j a h
    cases i with
    | zero =>
      cases j with
      | zero => exact absurd rfl h
      | succ m => simp [List.set]
    | succ k =>
      cases j with
      | zero => simp [List.set]
      | succ m =>
        simp only [List.set, List.getD_cons_succ]
        exact ih k m a (by omega)

lemma countCompleted_step (status : List ProcessStatus) (i : Nat) (s2 : ProcessStatus)
    (hi : i < status.length) (h0 : (status.getD i default).EndTime = 0) :
    (s2.EndTime ≠ 0 → countCompleted (status.set i s2) = countCompleted status + 1) ∧
    (s2.EndTime = 0 → countCompleted (status.set i s2) = countCompleted status) := by
  constructor
  · intro hne
    unfold countCompleted
    simp only [ne_eq, decide_not]
    have hc := countP_set status i s2 (fun s => decide (s.EndTime ≠ 0)) hi
    simp only [ne_eq, decide_not] at hc
    rw [h0] at hc
    simp [hne] at hc
    omega
  · intro heq
    unfold countCompleted
    simp only [ne_eq, decide_not]
    have hc := countP_set status i s2 (fun s => decide (s.EndTime ≠ 0)) hi
    simp only [ne_eq, decide_not] at hc
    rw [h0] at hc
    simp [heq] at hc
    omega

lemma stepWith_measure (sent : Int) (upd : Process → Int → ProcessStatus → ProcessStatus)
    (fin : ProcessStatus → ProcessStatus)
    (hEndUpd : ∀ p t s, (upd p t s).EndTime = s.EndTime)
    (hEndFin : ∀ s, (fin s).EndTime = s.EndTime)
    (A : Int) (n : Nat) (st : SimState)
    (hinv : simInv sent A n st) (hnd : st.completed < n) :
    simInv sent A n (stepWith sent upd fin st) ∧
    simPhi A (stepWith sent upd fin st) < simPhi A st := by
  obtain ⟨hlp, hls, htime0, hcnt, hrem, harr⟩ := hinv
  cases hsel : selectIdx sent st.procs st.status st.time with
  | none =>
    rw [stepWith_none sent upd fin st hsel]
    have hex : ∃ i, i < n ∧ (st.status.getD i default).EndTime = 0 := by
      have hcp : st.status.countP (fun s => decide (s.EndTime ≠ 0)) < st.status.length := by
        have h1 : countCompleted st.status < n := by omega
        unfold countCompleted at h1
        omega
      obtain ⟨i, hi, hp⟩ := exists_incomplete_of_countP_lt st.status _ hcp
      refine ⟨i, by omega, ?_⟩
      simpa using hp
    obtain ⟨i, hin, hiend⟩ := hex
    have hip : i < st.procs.length := by omega
    have harrI : st.time < (st.procs.getD i default).ArrivalTime := by
      by_contra hle
      push_neg at hle
      have hspec := selectIdx_none_spec sent st.procs st.status st.time
        (by rw [hls, hlp]) hsel i ⟨hip, hle, hiend⟩
      have hb := hrem i hin hiend
      unfold remAt at hspec hb
      omega
    have harrA : (st.procs.getD i default).ArrivalTime ≤ A :=
      harr _ (getD_mem st.procs i hip)
    refine ⟨⟨hlp, hls, by dsimp only; omega, hcnt, hrem, harr⟩, ?_⟩
    unfold simPhi remSumN
    dsimp only
    omega
  | some i =>
    have hspec := selectIdx_some_spec sent st.procs st.status st.time i
      (by rw [hls, hlp]) hsel
    obtain ⟨⟨hip, hiarr, hiend⟩, hisent, hmin, hfirst⟩ := hspec
    have hin : i < n := by omega
    have hb1 := hrem i hin hiend
    unfold remAt at hb1 hisent
    unfold stepWith
    rw [hsel]
    dsimp only
    have hiz : i < (st.procs.zip st.status).length := by
      rw [List.length_zip]
      omega
    have hzipD : (st.procs.zip st.status).getD i default =
        (st.procs.getD i default, st.status.getD i default) :=
      getD_of_getElem? _ _ _ (zip_getElem?_of _ _ _ _ _
        (getElem?_of_lt _ _ (by omega)) (getElem?_of_lt _ _ (by omega)))
    by_cases hb : (st.procs.getD i default).BurstDuration - 1 = 0
    · rw [if_pos hb]
      have hEnd2 : (fin { upd (st.procs.getD i default) st.time (st.status.getD i default)
          with EndTime := st.time + 1 }).EndTime = st.time + 1 := hEndFin _
      have hccEq := (countCompleted_step st.status i
        (fin { upd (st.procs.getD i default) st.time (st.status.getD i default)
          with EndTime := st.time + 1 }) (by omega) hiend).1
        (by rw [hEnd2]; omega)
      refine ⟨⟨?_, ?_, by dsimp only; omega, ?_, ?_, ?_⟩, ?_⟩
      · rw [List.length_set]
        exact hlp
      · rw [List.length_set]
        exact hls
      · rw [hccEq, ← hcnt]
      · intro j hj hjend
        by_cases hij : i = j
        · subst hij
          rw [getD_set_self st.status i _ (by omega)] at hjend
          rw [hEnd2] at hjend
          omega
        · rw [getD_set_other st.status i j _ hij] at hjend
          have := hrem j hj hjend
          unfold remAt at this ⊢
          rw [getD_set_other st.procs i j _ hij]
          exact this
      · intro q hq
        rcases List.mem_or_eq_of_mem_set hq with hq2 | hq2
        · exact harr q hq2
        · rw [hq2]
          show (st.procs.getD i default).ArrivalTime ≤ A
          exact harr _ (getD_mem st.procs i (by omega))
      · unfold simPhi remSumN
        dsimp only
        rw [zip_set]
        have hsum := sum_map_set (st.procs.zip st.status) i
          ({ st.procs.getD i default with
              BurstDuration := (st.procs.getD i default).BurstDuration - 1 },
            fin { upd (st.procs.getD i default) st.time (st.status.getD i default)
              with EndTime := st.time + 1 })
          (fun e => if e.2.EndTime = 0 then e.1.BurstDuration.toNat else 0) hiz
        rw [hzipD] at hsum
        simp only [hiend, hEnd2, eq_self_iff_true, if_true,
          show st.time + 1 ≠ 0 from by omega, if_false] at hsum
        omega
    · rw [if_neg hb]
      have hEndU : (upd (st.procs.getD i default) st.time
          (st.status.getD i default)).EndTime = 0 := by
        rw [hEndUpd]
        exact hiend
      have hccEq := (countCompleted_step st.status i
        (upd (st.procs.getD i default) st.time (st.status.getD i default))
        (by omega) hiend).2 hEndU
      refine ⟨⟨?_, ?_, by dsimp only; omega, ?_, ?_, ?_⟩, ?_⟩
      · rw [List.length_set]
        exact hlp
      · rw [List.length_set]
        exact hls
      · rw [hccEq, ← hcnt]
      · intro j hj hjend
        by_cases hij : i = j
        · subst hij
          unfold remAt
          rw [getD_set_self st.procs i _ (by omega)]
          dsimp only
          omega
        · rw [getD_set_other st.status i j _ hij] at hjend
          have := hrem j hj hjend
          unfold remAt at this ⊢
          rw [getD_set_other st.procs i j _ hij]
          exact this
      · intro q hq
        rcases List.mem_or_eq_of_mem_set hq with hq2 | hq2
        · exact harr q hq2
        · rw [hq2]
          show (st.procs.getD i default).ArrivalTime ≤ A
          exact harr _ (getD_mem st.procs i (by omega))
      · unfold simPhi remSumN
        dsimp only
        rw [zip_set]
        have hsum := sum_map_set (st.procs.zip st.status) i
          ({ st.procs.getD i default with
              BurstDuration := (st.procs.getD i default).BurstDuration - 1 },
            upd (st.procs.getD i default) st.time (st.status.getD i default))
          (fun e => if e.2.EndTime = 0 then e.1.BurstDuration.toNat else 0) hiz
        rw [hzipD] at hsum
        simp only [hiend, hEndU, eq_self_iff_true, if_true] at hsum
        omega

lemma loopFuel_done {σ : Type} (step : σ → σ) (isDone : σ → Bool) (Inv : σ → Prop)
    (phi : σ → Nat)
    (hstep : ∀ s, Inv s → isDone s = false → Inv (step s) ∧ phi (step s) < phi s) :
    ∀ (fuel : Nat) (s : σ), Inv s → phi s ≤ fuel →
      isDone (loopFuel step isDone fuel s) = true := by
  intro fuel
  induction fuel with
  | zero =>
    intro s hi hphi
    rw [loopFuel]
    cases hd : isDone s
    · have := hstep s hi hd
      omega
    · rfl
  | succ f ih =>
    intro s hi hphi
    rw [loopFuel]
    cases hd : isDone s
    · simp only [Bool.false_eq_true, if_false]
      obtain ⟨hi2, hlt⟩ := hstep s hi hd
      exact ih (step s) hi2 (by omega)
    · simp only [if_true]
      exact hd

lemma countCompleted_initStatus : ∀ n : Nat, countCompleted (initStatus n) = 0 := by
  intro n
  induction n with
  | zero => rfl
  | succ k ih =>
    unfold countCompleted initStatus at ih ⊢
    rw [List.replicate_succ, List.countP_cons]
    have hd : (default : ProcessStatus).EndTime = 0 := rfl
    simp [ih, hd]

lemma remSumN_simInit : ∀ l : List Process, remSumN (simInit l) = totalBurstNat l := by
  intro l
  unfold remSumN simInit initStatus totalBurstNat
  dsimp only
  induction l with
  | nil => rfl
  | cons x xs ih =>
    simp only [List.length_cons, List.replicate_succ, List.zip_cons_cons, List.map_cons,
      List.sum_cons]
    rw [ih]
    have hd : (default : ProcessStatus).EndTime = 0 := rfl
    simp [hd]

lemma mem_insertArr : ∀ (l : List Process) (p x : Process),
    x ∈ insertArr p l ↔ x = p ∨ x ∈ l := by
  intro l
  induction l with
  | nil => intro p x; simp [insertArr]
  | cons q rest ih =>
    intro p x
    simp only [insertArr]
    split_ifs
    · simp [List.mem_cons]
    · simp [List.mem_cons, ih]
      tauto

lemma mem_sortByArrival : ∀ (ps : List Process) (x : Process),
    x ∈ sortByArrival ps ↔ x ∈ ps := by
  intro ps
  induction ps with
  | nil => intro x; simp [sortByArrival]
  | cons p rest ih =>
    intro x
    simp only [sortByArrival, mem_insertArr, ih, List.mem_cons]

lemma le_maxArrival_foldl : ∀ (ps : List Process) (a : Int),
    a ≤ ps.foldl (fun m p => max m p.ArrivalTime) a ∧
    ∀ p ∈ ps, p.ArrivalTime ≤ ps.foldl (fun m p => max m p.ArrivalTime) a := by
  intro ps
  induction ps with
  | nil => intro a; exact ⟨le_refl a, by simp⟩
  | cons q rest ih =>
    intro a
    simp only [List.foldl_cons]
    have h := ih (max a q.ArrivalTime)
    refine ⟨le_trans (le_max_left _ _) h.1, ?_⟩
    intro p hp
    rcases List.mem_cons.mp hp with rfl | hp2
    · exact le_trans (le_max_right _ _) h.1
    · exact h.2 p hp2

lemma sim_terminates (sent : Int) (upd : Process → Int → ProcessStatus → ProcessStatus)
    (fin : ProcessStatus → ProcessStatus)
    (hEndUpd : ∀ p t s, (upd p t s).EndTime = s.EndTime)
    (hEndFin : ∀ s, (fin s).EndTime = s.EndTime)
    (ps : List Process)
    (hb : ∀ p ∈ ps, 0 < p.BurstDuration ∧ p.BurstDuration < sent) :
    simDone (sortByArrival ps).length
      (loopFuel (stepWith sent upd fin) (simDone (sortByArrival ps).length)
        (simFuel (sortByArrival ps)) (simInit (sortByArrival ps))) = true := by
  apply loopFuel_done (stepWith sent upd fin) (simDone (sortByArrival ps).length)
    (simInv sent (maxArrival (sortByArrival ps)) (sortByArrival ps).length)
    (simPhi (maxArrival (sortByArrival ps)))
  · intro s hi hd
    apply stepWith_measure sent upd fin hEndUpd hEndFin _ _ s hi
    have : ¬ ((sortByArrival ps).length ≤ s.completed) := by simpa [simDone] using hd
    omega
  · refine ⟨rfl, by simp [simInit, initStatus], le_refl 0,
      (countCompleted_initStatus _).symm, ?_, ?_⟩
    · intro i hi hiE
      have hmem := getD_mem (sortByArrival ps) i hi
      have hbp := hb _ ((mem_sortByArrival ps _).mp hmem)
      unfold remAt
      rw [show (simInit (sortByArrival ps)).procs = sortByArrival ps from rfl]
      exact ⟨by omega, by omega⟩
    · intro p hp
      exact (le_maxArrival_foldl (sortByArrival ps) 0).2 p hp
  · unfold simPhi simFuel
    rw [remSumN_simInit]
    simp [simInit]

lemma rrStep_measure (n : Nat) (st : RRState) (hinv : rrInv n st) (hnd : st.completed < n) :
    rrInv n (rrStep st) ∧ rrPhi (rrStep st) < rrPhi st := by
  obtain ⟨hlp, hls, htime0, hnodup, hq, hlen⟩ := hinv
  cases hq0 : st.queue with
  | nil =>
    rw [hq0] at hlen
    simp at hlen
    omega
  | cons i rest =>
    have hii := hq i (by rw [hq0]; simp)
    have hnodup2 : i ∉ rest ∧ rest.Nodup := by
      rw [hq0] at hnodup
      exact List.nodup_cons.mp hnodup
    unfold rrStep
    rw [hq0]
    dsimp only
    by_cases hbg : (st.processes.getD i default).BurstDuration > 1
    · rw [if_pos hbg]
      refine ⟨⟨?_, ?_, by dsimp only; omega, ?_, ?_, ?_⟩, ?_⟩
      · rw [List.length_set]
        exact hlp
      · rw [List.length_set]
        exact hls
      · rw [List.nodup_append]
        refine ⟨hnodup2.2, by simp, ?_⟩
        intro a ha hai
        simp only [List.mem_singleton] at hai
        subst hai
        exact hnodup2.1 ha
      · intro j hj
        rcases List.mem_append.mp hj with hj2 | hj2
        · have hji : j ≠ i := fun h => hnodup2.1 (h ▸ hj2)
          have := hq j (by rw [hq0]; exact List.mem_cons_of_mem _ hj2)
          rw [getD_set_other st.processes i j _ (fun h => hji h.symm)]
          exact this
        · simp only [List.mem_singleton] at hj2
          subst hj2
          rw [getD_set_self st.processes _ _ (by omega)]
          exact ⟨hii.1, by dsimp only; omega⟩
      · rw [hq0] at hlen
        simp only [List.length_cons] at hlen
        simp only [List.length_append, List.length_cons, List.length_nil]
        omega
      · unfold rrPhi
        dsimp only
        have hsum := sum_map_set st.processes i
          ({ st.processes.getD i default with
              BurstDuration := (st.processes.getD i default).BurstDuration - 1 })
          (fun p => p.BurstDuration.toNat) (by omega)
        dsimp only at hsum
        omega
    · rw [if_neg hbg]
      have hb1 : (st.processes.getD i default).BurstDuration = 1 := by omega
      refine ⟨⟨?_, ?_, by dsimp only; omega, hnodup2.2, ?_, ?_⟩, ?_⟩
      · rw [List.length_set]
        exact hlp
      · rw [List.length_set]
        exact hls
      · intro j hj
        have hji : j ≠ i := fun h => hnodup2.1 (h ▸ hj)
        have := hq j (by rw [hq0]; exact List.mem_cons_of_mem _ hj)
        rw [getD_set_other st.processes i j _ (fun h => hji h.symm)]
        exact this
      · rw [hq0] at hlen
        simp only [List.length_cons] at hlen
        dsimp only
        omega
      · unfold rrPhi
        dsimp only
        have hsum := sum_map_set st.processes i
          ({ st.processes.getD i default with BurstDuration := 0 })
          (fun p => p.BurstDuration.toNat) (by omega)
        dsimp only at hsum
        rw [hb1] at hsum
        omega

lemma rr_terminates (ps : List Process) (hb : ∀ p ∈ ps, 0 < p.BurstDuration) :
    rrDone ps.length (rrFinalState ps) = true := by
  apply loopFuel_done rrStep (rrDone ps.length) (rrInv ps.length) rrPhi
  · intro s hi hd
    apply rrStep_measure ps.length s hi
    have : ¬ (ps.length ≤ s.completed) := by simpa [rrDone] using hd
    omega
  · refine ⟨rfl, by simp [rrInit, initStatus], le_refl 0, List.nodup_range ps.length, ?_,
      by simp [rrInit]⟩
    intro i hi
    have hiLt : i < ps.length := List.mem_range.mp hi
    have := hb _ (getD_mem ps i hiLt)
    exact ⟨hiLt, by rw [show (rrInit ps).processes = ps from rfl]; omega⟩
  · exact le_refl _

/-- C7 (amended): `FCFSSchedule` is a single structural pass and `RRSchedule`
completes within total-burst steps given positive bursts; the two SJF-style
loops complete within (total burst + maximum arrival) steps provided every
burst is positive and strictly below the selection sentinel (999 for
`SJFPrioritySchedule`, `2^63 - 1` for `SJFSchedule`).  A burst at or above
the sentinel is never selected and the loop runs forever (see the
counterexample). -/
theorem schedulers_terminate :
    (∀ ps : List Process,
      (∀ p ∈ ps, 0 < p.BurstDuration ∧ p.BurstDuration < sjfpSentinel) →
      simDone (sortByArrival ps).length (sjfpFinalState ps) = true) ∧
    (∀ ps : List Process,
      (∀ p ∈ ps, 0 < p.BurstDuration ∧ p.BurstDuration < sjfSentinel) →
      simDone (sortByArrival ps).length (sjfFinalState ps) = true) ∧
    (∀ ps : List Process, (∀ p ∈ ps, 0 < p.BurstDuration) →
      rrDone ps.length (rrFinalState ps) = true) := by
  refine ⟨?_, ?_, fun ps hb => rr_terminates ps hb⟩
  · intro ps hb
    exact sim_terminates sjfpSentinel sjfpUpd sjfpFinish
      (fun p t s => rfl)
      (fun s => by unfold sjfpFinish; split_ifs <;> rfl)
      ps hb
  · intro ps hb
    exact sim_terminates sjfSentinel sjfUpd id (fun p t s => rfl) (fun s => rfl) ps hb

/-- C7 witness: all three loops complete on a concrete single-process input. -/
theorem schedulers_terminate_witness :
    simDone (sortByArrival [⟨1, 0, 3, 0⟩]).length (sjfpFinalState [⟨1, 0, 3, 0⟩]) = true ∧
    simDone (sortByArrival [⟨1, 0, 3, 0⟩]).length (sjfFinalState [⟨1, 0, 3, 0⟩]) = true ∧
    rrDone 1 (rrFinalState [⟨1, 0, 3, 0⟩]) = true :=
  ⟨schedulers_terminate.1 [⟨1, 0, 3, 0⟩] (by decide),
   schedulers_terminate.2.1 [⟨1, 0, 3, 0⟩] (by decide),
   schedulers_terminate.2.2 [⟨1, 0, 3, 0⟩] (by decide)⟩
